import Mathlib

/-!
Verification of the score-attribution and team-ranking core of the pga-tracker
repository (Go).  The definitions below are a shallow embedding of the Go
source: `main.go` (the current iteration of the program, the one defining
`Team`, `PageData` and the `Excluded` flag).  File reading, JSON decoding,
HTTP fetching and HTML rendering are outside the embedded core; `getTeamScores`
is modelled from the point where the snapshot has been decoded.

Go runtime panics (index out of range, slice bounds out of range) are modelled
by `Option.none`: a function returns `none` exactly when the Go code panics.

Machine integers: all scores fit comfortably in `int64`; overflow is never
reachable for the inputs considered by the claims, so Go `int` is modelled
by `Int`.
-/

/-! ## String helpers from the Go standard library -/

/-- Model of Go `strconv.Atoi` composed with the error-discarding pattern
`strokes, _ := strconv.Atoi(s)`: an optional sign followed by digits only;
any syntax error leaves the zero value `0`. -/
def goAtoi (s : String) : Int :=
  match s.data with
  | [] => 0
  | c :: rest =>
    let neg := c = '-'
    let ds := if c = '-' ∨ c = '+' then rest else c :: rest
    if ds.isEmpty then 0
    else if ds.all (fun d => d.isDigit) then
      let n : Nat := ds.foldl (fun a d => a * 10 + (d.toNat - 48)) 0
      if neg then -(n : Int) else (n : Int)
    else 0

/-- Model of `fmt.Sscanf(val, "%d", &score)` with `score` initialised to `0`:
skip leading white space, read an optional sign and a maximal digit run; if no
digit is read the scan fails and `score` keeps its zero value. -/
def sscanfInt (s : String) : Int :=
  let cs := s.data.dropWhile (fun c => c.isWhitespace)
  let negAndRest : Bool × List Char :=
    match cs with
    | '-' :: t => (true, t)
    | '+' :: t => (false, t)
    | t => (false, t)
  let ds := negAndRest.2.takeWhile (fun c => c.isDigit)
  if ds.isEmpty then 0
  else
    let n : Nat := ds.foldl (fun a d => a * 10 + (d.toNat - 48)) 0
    if negAndRest.1 then -(n : Int) else (n : Int)

/-- Model of Go `strings.TrimPrefix`. -/
def trimPrefix (s pre : String) : String :=
  if pre.data.isPrefixOf s.data then String.mk (s.data.drop pre.data.length) else s

/-- Model of Go `strings.SplitN(s, " ", 2)`: at most two pieces, split at the
first space.  A string with no space yields a single piece. -/
def splitN2 (s : String) : List String :=
  let pieces := s.data.span (fun c => c ≠ ' ')
  match pieces.2 with
  | [] => [s]
  | _ :: rest => [String.mk pieces.1, String.mk rest]

/-! ## Data model (struct definitions of the Go source) -/

/-- Go struct `Round`. -/
structure Round where
  scoreToPar : String
  deriving Repr, DecidableEq

/-- Go struct `LeaderboardRow`. -/
structure LeaderboardRow where
  FirstName : String
  LastName : String
  Total : String
  Rounds : List Round
  Position : String
  deriving Repr, DecidableEq

/-- One element of the anonymous `cutLines` struct slice of Go struct
`Leaderboard`. -/
structure CutLine where
  cutScore : String
  deriving Repr, DecidableEq

/-- Go struct `Leaderboard`. -/
structure Leaderboard where
  cutLines : List CutLine
  LeaderboardRows : List LeaderboardRow
  deriving Repr, DecidableEq

/-- Go struct `Player` (the ScoredPlayer of the specification). -/
structure Player where
  FullName : String
  R1 : Int
  R2 : Int
  R3 : Int
  R4 : Int
  Total : Int
  Excluded : Bool
  deriving Repr, DecidableEq

/-- The Go zero value `Player{}`. -/
def zeroPlayer : Player :=
  { FullName := "", R1 := 0, R2 := 0, R3 := 0, R4 := 0, Total := 0, Excluded := false }

instance : Inhabited Player := ⟨zeroPlayer⟩

/-! ## Program functions -/

/-- Go function `strokesInt`. -/
def strokesInt (s : String) : Int :=
  goAtoi s

/-- Go function `parseCutScore`. -/
def parseCutScore (cut : String) : Int :=
  let val := trimPrefix cut "+"
  let val2 := trimPrefix val "-"
  sscanfInt val2

/-- Go function `splitName`.  A name with no space makes the Go code read
`split[1]` of a one-element slice: an index-out-of-range panic, modelled as
`none` (the preceding `log.Printf` does not prevent the read). -/
def splitName (name : String) : Option (String × String) :=
  if name = "Min Woo Lee" then some ("Min Woo", "Lee")
  else
    match splitN2 name with
    | [f, l] => some (f, l)
    | _ => none

/-- Model of Go `strings.ToUpper` on the ASCII strings the program compares
(position values such as "cut"): uppercase each character. -/
def toUpperGo (s : String) : String :=
  String.mk (s.data.map Char.toUpper)

/-- Go function `playerTotal`. -/
def playerTotal (p : Player) : Int :=
  p.R1 + p.R2 + p.R3 + p.R4

/-- The linear scan of `getTeamScores` looking for the first leaderboard row
whose first and last name both match exactly. -/
def findRow (rows : List LeaderboardRow) (firstName lastName : String) : Option LeaderboardRow :=
  rows.find? (fun row => row.FirstName == firstName && row.LastName == lastName)

/-- One iteration of the round loop `for i := 0; i < 4; i++` of
`getTeamScores`: round `i` is parsed only when the row has a round at index
`i` and the player is not cut; a cut player gets the penalty value in R3 and
R4; otherwise the field keeps its zero value. -/
def applyRound (found : LeaderboardRow) (isCut : Bool) (cutVal : Int) (p : Player) (i : Nat) : Player :=
  if i < found.Rounds.length ∧ ¬ isCut then
    let strokes := strokesInt ((found.Rounds.getD i ⟨""⟩).scoreToPar)
    match i with
    | 0 => { p with R1 := strokes }
    | 1 => { p with R2 := strokes }
    | 2 => { p with R3 := strokes }
    | 3 => { p with R4 := strokes }
    | _ => p
  else if isCut ∧ 2 ≤ i then
    match i with
    | 2 => { p with R3 := cutVal }
    | 3 => { p with R4 := cutVal }
    | _ => p
  else p

/-- The body of the roster loop of `getTeamScores` once a leaderboard row has
been found: build the `Player`, run the round loop, apply the zero-rounds
fallback to R1, and set `Total` to the sum of the four rounds. -/
def scorePlayer (name : String) (found : LeaderboardRow) (cutVal : Int) : Player :=
  let p0 : Player :=
    { FullName := name, R1 := 0, R2 := 0, R3 := 0, R4 := 0, Total := 0, Excluded := false }
  let isCut := toUpperGo found.Position = "CUT"
  let p1 := [0, 1, 2, 3].foldl (applyRound found isCut cutVal) p0
  let p2 := if found.Rounds.length = 0 then { p1 with R1 := strokesInt found.Total } else p1
  { p2 with Total := p2.R1 + p2.R2 + p2.R3 + p2.R4 }

/-- The cut penalty computed once per snapshot at the top of `getTeamScores`:
`parseCutScore(cutLines[0].CutScore) + 3` when the snapshot has cut lines,
`0` otherwise. -/
def cutValOf (lb : Leaderboard) : Int :=
  match lb.cutLines with
  | [] => 0
  | c :: _ => parseCutScore c.cutScore + 3

/-- The roster loop of `getTeamScores`: resolve each name, skip names without
a leaderboard match, score the matched ones in roster order.  `none` models
the panic raised by `splitName` on a name with no space. -/
def buildTeam (lb : Leaderboard) (cutVal : Int) : List String → Option (List Player)
  | [] => some []
  | name :: rest => do
    let fl ← splitName name
    let team ← buildTeam lb cutVal rest
    match findRow lb.LeaderboardRows fl.1 fl.2 with
    | none => pure team
    | some row => pure (scorePlayer name row cutVal :: team)

/-- Capacity of a Go slice built by appending elements one at a time to a nil
slice: zero when empty, otherwise doubling whenever the length would exceed
the capacity (the Go runtime doubles small backing arrays). -/
def goCap : Nat → Nat
  | 0 => 0
  | n + 1 =>
    let c := goCap n
    if n + 1 ≤ c then c else if c = 0 then 1 else 2 * c

/-- Model of the Go slice expression `team[:k]` on a slice of length
`l.length` and capacity `goCap l.length`: within the length it is a prefix;
between length and capacity it exposes zero-valued elements of the backing
array; beyond the capacity it panics (`none`). -/
def sliceUpTo (l : List Player) (k : Nat) : Option (List Player) :=
  if k ≤ l.length then some (l.take k)
  else if k ≤ goCap l.length then some (l ++ List.replicate (k - l.length) zeroPlayer)
  else none

/-- The loop `for i := 4; i < len(team); i++ { team[i].Excluded = true }`. -/
def markExcluded (team : List Player) : List Player :=
  team.take 4 ++ (team.drop 4).map (fun p => { p with Excluded := true })


/-! ## Model of Go `sort.Slice` (pattern-defeating quicksort, Go 1.19+)

The slice being sorted is a `List α`; `data.Less(i, j)` reads two positions
and `data.Swap(i, j)` writes two positions, mirroring the `lessSwap`
interface of package `sort`.  Loops are translated to structurally recursive
helpers with an explicit gas parameter; the gas passed at every call site is
an upper bound on the number of iterations the Go loop can perform, so the
model computes exactly what the Go code computes. -/

/-- Read of one position of the slice, `data[k]`.  All reads performed by the
sort are in bounds, so the default is never produced. -/
def dget {α : Type} [Inhabited α] (l : List α) (k : Nat) : α :=
  l.getD k default

/-- The `data.Swap(i, j)` primitive. -/
def dswap {α : Type} [Inhabited α] (l : List α) (i j : Nat) : List α :=
  (l.set i (dget l j)).set j (dget l i)

/-- Inner loop of `insertionSort_func`: with `j+1` playing the role of the Go
index `j`, bubble the element down while `j > a && data.Less(j, j-1)`. -/
def insSortInner {α : Type} [Inhabited α] (less : α → α → Bool) (a : Nat) :
    Nat → List α → List α
  | 0, l => l
  | j + 1, l =>
    if a < j + 1 ∧ less (dget l (j + 1)) (dget l j) then
      insSortInner less a j (dswap l (j + 1) j)
    else l

/-- Outer loop of `insertionSort_func`, `for i := a + 1; i < b; i++`. -/
def insSortOuter {α : Type} [Inhabited α] (less : α → α → Bool) (a b : Nat) :
    Nat → Nat → List α → List α
  | 0, _, l => l
  | gas + 1, i, l =>
    if i < b then insSortOuter less a b gas (i + 1) (insSortInner less a i l) else l

/-- Go `insertionSort_func(data, a, b)`. -/
def insertionSortGo {α : Type} [Inhabited α] (less : α → α → Bool) (l : List α) (a b : Nat) :
    List α :=
  insSortOuter less a b (b - a) (a + 1) l

/-- Child selection of `siftDown_func`: move to the second child when it
exists and compares greater. -/
def siftChild {α : Type} [Inhabited α] (less : α → α → Bool) (first hi child0 : Nat)
    (l : List α) : Nat :=
  if child0 + 1 < hi ∧ less (dget l (first + child0)) (dget l (first + child0 + 1)) then
    child0 + 1
  else child0

/-- Go `siftDown_func(data, lo, hi, first)` (the loop on `root`). -/
def siftDownAux {α : Type} [Inhabited α] (less : α → α → Bool) (first hi : Nat) :
    Nat → Nat → List α → List α
  | 0, _, l => l
  | gas + 1, root, l =>
    let child0 := 2 * root + 1
    if child0 < hi then
      let child := siftChild less first hi child0 l
      if less (dget l (first + root)) (dget l (first + child)) then
        siftDownAux less first hi gas child (dswap l (first + root) (first + child))
      else l
    else l

/-- Heap construction loop of `heapSort_func`: `for i := (hi-1)/2; i >= 0; i--`,
with the argument counting the iterations still to run (Go index plus one). -/
def heapBuild {α : Type} [Inhabited α] (less : α → α → Bool) (first hi : Nat) :
    Nat → List α → List α
  | 0, l => l
  | i + 1, l => heapBuild less first hi i (siftDownAux less first hi hi i l)

/-- Pop loop of `heapSort_func`: `for i := hi - 1; i >= 0; i--`. -/
def heapPop {α : Type} [Inhabited α] (less : α → α → Bool) (first : Nat) :
    Nat → List α → List α
  | 0, l => l
  | i + 1, l => heapPop less first i (siftDownAux less first i i 0 (dswap l first (first + i)))

/-- Go `heapSort_func(data, a, b)`. -/
def heapSortGo {α : Type} [Inhabited α] (less : α → α → Bool) (l : List α) (a b : Nat) :
    List α :=
  let hi := b - a
  heapPop less a hi (heapBuild less a hi ((hi - 1) / 2 + 1) l)

/-- Go `reverseRange_func(data, a, b)` (loop with `i < j`). -/
def revRange {α : Type} [Inhabited α] : Nat → Nat → Nat → List α → List α
  | 0, _, _, l => l
  | gas + 1, i, j, l => if i < j then revRange gas (i + 1) (j - 1) (dswap l i j) else l

/-- Go `reverseRange_func(data, a, b)`. -/
def reverseRangeGo {α : Type} [Inhabited α] (l : List α) (a b : Nat) : List α :=
  revRange (b - a) a (b - 1) l

/-- Scanning loop of `partialInsertionSort_func`:
`for i < b && !data.Less(i, i-1) { i++ }`, returning the new `i`. -/
def pInsScan {α : Type} [Inhabited α] (less : α → α → Bool) (b : Nat) :
    Nat → Nat → List α → Nat
  | 0, i, _ => i
  | gas + 1, i, l =>
    if i < b ∧ ¬ less (dget l i) (dget l (i - 1)) then pInsScan less b gas (i + 1) l else i

/-- Left shift of `partialInsertionSort_func`:
`for j := i - 1; j >= 1; j--`, stopping at the first ordered pair. -/
def shiftLeft {α : Type} [Inhabited α] (less : α → α → Bool) : Nat → Nat → List α → List α
  | 0, _, l => l
  | gas + 1, j, l =>
    if 1 ≤ j then
      if less (dget l j) (dget l (j - 1)) then shiftLeft less gas (j - 1) (dswap l j (j - 1))
      else l
    else l

/-- Right shift of `partialInsertionSort_func`:
`for j := i + 1; j < b; j++`, stopping at the first ordered pair. -/
def shiftRight {α : Type} [Inhabited α] (less : α → α → Bool) (b : Nat) :
    Nat → Nat → List α → List α
  | 0, _, l => l
  | gas + 1, j, l =>
    if j < b then
      if less (dget l j) (dget l (j - 1)) then shiftRight less b gas (j + 1) (dswap l j (j - 1))
      else l
    else l

/-- Outer loop of `partialInsertionSort_func` (`maxSteps = 5` rounds,
`shortestShifting = 50`); returns whether the range was found sorted,
together with the final state. -/
def pInsSortSteps {α : Type} [Inhabited α] (less : α → α → Bool) (a b : Nat) :
    Nat → Nat → List α → Bool × List α
  | 0, _, l => (false, l)
  | steps + 1, i, l =>
    let i2 := pInsScan less b b i l
    if i2 = b then (true, l)
    else if b - a < 50 then (false, l)
    else
      let l1 := dswap l i2 (i2 - 1)
      let l2 := if 2 ≤ i2 - a then shiftLeft less (i2 - 1) (i2 - 1) l1 else l1
      let l3 := if 2 ≤ b - i2 then shiftRight less b (b - (i2 + 1)) (i2 + 1) l2 else l2
      pInsSortSteps less a b steps i2 l3

/-- Go `partialInsertionSort_func(data, a, b)`. -/
def pInsSortGo {α : Type} [Inhabited α] (less : α → α → Bool) (l : List α) (a b : Nat) :
    Bool × List α :=
  pInsSortSteps less a b 5 (a + 1) l

/-- Go `(*xorshift).Next` on a 64-bit state. -/
def xorshiftNext (r : Nat) : Nat :=
  let r1 := (r ^^^ (r <<< 13)) % 2 ^ 64
  let r2 := r1 ^^^ (r1 >>> 7)
  (r2 ^^^ (r2 <<< 17)) % 2 ^ 64

/-- Halving recursion for `bits.Len`, with gas bounding the number of
halvings (any gas at least the value itself is enough). -/
def bitsLenAux : Nat → Nat → Nat
  | 0, _ => 0
  | gas + 1, n => if n = 0 then 0 else bitsLenAux gas (n / 2) + 1

/-- Go `bits.Len` on a nonnegative value: the number of bits needed to
represent it. -/
def bitsLen (n : Nat) : Nat :=
  bitsLenAux n n

/-- Go sort helper `nextPowerOfTwo(length) = 1 << bits.Len(uint(length))`. -/
def nextPowerOfTwo (length : Nat) : Nat :=
  1 <<< bitsLen length

/-- Go `breakPatterns_func(data, a, b)`: three pseudo-random swaps around the
middle of the range, seeded with the range length (unrolled `for i := 0..2`). -/
def breakPatternsGo {α : Type} [Inhabited α] (l : List α) (a b : Nat) : List α :=
  let length := b - a
  if 8 ≤ length then
    let idx := a + length / 4 * 2 - 1
    let modulus := nextPowerOfTwo length
    let r1 := xorshiftNext length
    let o1 := r1 &&& (modulus - 1)
    let o1b := if length ≤ o1 then o1 - length else o1
    let l1 := dswap l (idx - 1) (a + o1b)
    let r2 := xorshiftNext r1
    let o2 := r2 &&& (modulus - 1)
    let o2b := if length ≤ o2 then o2 - length else o2
    let l2 := dswap l1 idx (a + o2b)
    let r3 := xorshiftNext r2
    let o3 := r3 &&& (modulus - 1)
    let o3b := if length ≤ o3 then o3 - length else o3
    dswap l2 (idx + 1) (a + o3b)
  else l

/-- The three-valued `sortedHint` of package `sort`. -/
inductive SortedHint where
  | increasing
  | decreasing
  | unknown
  deriving Repr, DecidableEq

/-- Go `order2_func`: order two indices by their elements, counting swaps. -/
def order2 {α : Type} [Inhabited α] (less : α → α → Bool) (l : List α) (a b s : Nat) :
    Nat × Nat × Nat :=
  if less (dget l b) (dget l a) then (b, a, s + 1) else (a, b, s)

/-- Go `median_func`: index of the median of three elements, counting swaps. -/
def medianIdx {α : Type} [Inhabited α] (less : α → α → Bool) (l : List α) (a b c s : Nat) :
    Nat × Nat :=
  let t1 := order2 less l a b s
  let t2 := order2 less l t1.2.1 c t1.2.2
  let t3 := order2 less l t1.1 t2.1 t2.2.2
  (t3.2.1, t3.2.2)

/-- Go `medianAdjacent_func`: median of `data[a-1]`, `data[a]`, `data[a+1]`. -/
def medianAdjacent {α : Type} [Inhabited α] (less : α → α → Bool) (l : List α) (a s : Nat) :
    Nat × Nat :=
  medianIdx less l (a - 1) a (a + 1) s

/-- Go `choosePivot_func(data, a, b)`; `shortestNinther = 50`, `maxSwaps = 12`. -/
def choosePivot {α : Type} [Inhabited α] (less : α → α → Bool) (l : List α) (a b : Nat) :
    Nat × SortedHint :=
  let len := b - a
  let i0 := a + len / 4 * 1
  let j0 := a + len / 4 * 2
  let k0 := a + len / 4 * 3
  if 8 ≤ len then
    let ijks : Nat × Nat × Nat × Nat :=
      if 50 ≤ len then
        let mi := medianAdjacent less l i0 0
        let mj := medianAdjacent less l j0 mi.2
        let mk := medianAdjacent less l k0 mj.2
        (mi.1, mj.1, mk.1, mk.2)
      else (i0, j0, k0, 0)
    let m := medianIdx less l ijks.1 ijks.2.1 ijks.2.2.1 ijks.2.2.2
    if m.2 = 0 then (m.1, SortedHint.increasing)
    else if m.2 = 12 then (m.1, SortedHint.decreasing)
    else (m.1, SortedHint.unknown)
  else (j0, SortedHint.increasing)

/-- Advance `i` in `partition_func`: `for i <= j && data.Less(i, a) { i++ }`. -/
def partScanI {α : Type} [Inhabited α] (less : α → α → Bool) (l : List α) (aIdx : Nat) :
    Nat → Nat → Nat → Nat
  | 0, i, _ => i
  | gas + 1, i, j =>
    if i ≤ j ∧ less (dget l i) (dget l aIdx) then partScanI less l aIdx gas (i + 1) j else i

/-- Retreat `j` in `partition_func`: `for i <= j && !data.Less(j, a) { j-- }`. -/
def partScanJ {α : Type} [Inhabited α] (less : α → α → Bool) (l : List α) (aIdx : Nat) :
    Nat → Nat → Nat → Nat
  | 0, _, j => j
  | gas + 1, i, j =>
    if i ≤ j ∧ ¬ less (dget l j) (dget l aIdx) then partScanJ less l aIdx gas i (j - 1) else j

/-- Main loop of `partition_func` after the first pair was swapped. -/
def partLoop {α : Type} [Inhabited α] (less : α → α → Bool) (aIdx b : Nat) :
    Nat → Nat → Nat → List α → List α × Nat
  | 0, _, j, l => (l, j)
  | gas + 1, i, j, l =>
    let i2 := partScanI less l aIdx b i j
    let j2 := partScanJ less l aIdx b i2 j
    if j2 < i2 then (l, j2)
    else partLoop less aIdx b gas (i2 + 1) (j2 - 1) (dswap l i2 j2)

/-- Go `partition_func(data, a, b, pivot)`: final state, new pivot position,
and the `alreadyPartitioned` flag. -/
def partitionGo {α : Type} [Inhabited α] (less : α → α → Bool) (l0 : List α) (a b pivot : Nat) :
    List α × Nat × Bool :=
  let l := dswap l0 a pivot
  let i0 := partScanI less l a b (a + 1) (b - 1)
  let j0 := partScanJ less l a b i0 (b - 1)
  if j0 < i0 then (dswap l j0 a, j0, true)
  else
    let r := partLoop less a b b (i0 + 1) (j0 - 1) (dswap l i0 j0)
    (dswap r.1 r.2 a, r.2, false)

/-- Advance `i` in `partitionEqual_func`: `for i <= j && !data.Less(a, i)`. -/
def peqScanI {α : Type} [Inhabited α] (less : α → α → Bool) (l : List α) (aIdx : Nat) :
    Nat → Nat → Nat → Nat
  | 0, i, _ => i
  | gas + 1, i, j =>
    if i ≤ j ∧ ¬ less (dget l aIdx) (dget l i) then peqScanI less l aIdx gas (i + 1) j else i

/-- Retreat `j` in `partitionEqual_func`: `for i <= j && data.Less(a, j)`. -/
def peqScanJ {α : Type} [Inhabited α] (less : α → α → Bool) (l : List α) (aIdx : Nat) :
    Nat → Nat → Nat → Nat
  | 0, _, j => j
  | gas + 1, i, j =>
    if i ≤ j ∧ less (dget l aIdx) (dget l j) then peqScanJ less l aIdx gas i (j - 1) else j

/-- Main loop of `partitionEqual_func`; returns the final state and `i`. -/
def peqLoop {α : Type} [Inhabited α] (less : α → α → Bool) (aIdx b : Nat) :
    Nat → Nat → Nat → List α → List α × Nat
  | 0, i, _, l => (l, i)
  | gas + 1, i, j, l =>
    let i2 := peqScanI less l aIdx b i j
    let j2 := peqScanJ less l aIdx b i2 j
    if j2 < i2 then (l, i2)
    else peqLoop less aIdx b gas (i2 + 1) (j2 - 1) (dswap l i2 j2)

/-- Go `partitionEqual_func(data, a, b, pivot)`. -/
def partitionEqualGo {α : Type} [Inhabited α] (less : α → α → Bool) (l0 : List α)
    (a b pivot : Nat) : List α × Nat :=
  let l := dswap l0 a pivot
  peqLoop less a b b (a + 1) (b - 1) l

/-- The pattern-breaking step at the top of the `pdqsort_func` loop: when the
last partitioning was imbalanced, scatter elements and consume one unit of
`limit`. -/
def pdqBreak {α : Type} [Inhabited α] (wasBalanced : Bool) (l : List α) (a b limit : Nat) :
    List α × Nat :=
  if wasBalanced = false then (breakPatternsGo l a b, limit - 1) else (l, limit)

/-- The pivot-choice step of the `pdqsort_func` loop, inverting a decreasing
range: returns the pivot, the (corrected) hint, and the state. -/
def pdqPivot {α : Type} [Inhabited α] (less : α → α → Bool) (l : List α) (a b : Nat) :
    Nat × SortedHint × List α :=
  let ph := choosePivot less l a b
  if ph.2 = SortedHint.decreasing then
    ((b - 1) - (ph.1 - a), SortedHint.increasing, reverseRangeGo l a b)
  else (ph.1, ph.2, l)

/-- The already-sorted check of the `pdqsort_func` loop: try a partial
insertion sort when the slice is likely sorted. -/
def pdqCheck {α : Type} [Inhabited α] (less : α → α → Bool) (wasBalanced wasPartitioned : Bool)
    (hint : SortedHint) (l : List α) (a b : Nat) : Bool × List α :=
  if wasBalanced = true ∧ wasPartitioned = true ∧ hint = SortedHint.increasing then
    pInsSortGo less l a b
  else (false, l)

/-- Go `pdqsort_func(data, a, b, limit)`; `maxInsertion = 12`.  The first
argument is gas: one unit is consumed per iteration of the outer loop and per
recursive call, and the top-level call passes the slice length, an upper
bound on the length of any such chain, so gas never runs out on the paths the
Go code takes. -/
def pdqsortGo {α : Type} [Inhabited α] (less : α → α → Bool) :
    Nat → Nat → Nat → Nat → Bool → Bool → List α → List α
  | 0, _, _, _, _, _, l => l
  | gas + 1, a, b, limit, wasBalanced, wasPartitioned, l =>
    if b - a ≤ 12 then insertionSortGo less l a b
    else if limit = 0 then heapSortGo less l a b
    else
      let fl := pdqBreak wasBalanced l a b limit
      let pph := pdqPivot less fl.1 a b
      let sc := pdqCheck less wasBalanced wasPartitioned pph.2.1 pph.2.2 a b
      if sc.1 then sc.2
      else if 0 < a ∧ ¬ less (dget sc.2 (a - 1)) (dget sc.2 pph.1) then
        let r := partitionEqualGo less sc.2 a b pph.1
        pdqsortGo less gas r.2 b fl.2 wasBalanced wasPartitioned r.1
      else
        let r := partitionGo less sc.2 a b pph.1
        let balanced : Bool := (b - a) / 8 ≤ min (r.2.1 - a) (b - r.2.1)
        if r.2.1 - a < b - r.2.1 then
          pdqsortGo less gas (r.2.1 + 1) b fl.2 balanced r.2.2
            (pdqsortGo less gas a r.2.1 fl.2 true true r.1)
        else
          pdqsortGo less gas a r.2.1 fl.2 balanced r.2.2
            (pdqsortGo less gas (r.2.1 + 1) b fl.2 true true r.1)

/-- Go `sort.Slice(x, less)`: `limit = bits.Len(uint(length))`, then
`pdqsort_func` over the whole slice. -/
def sortSlice {α : Type} [Inhabited α] (less : α → α → Bool) (l : List α) : List α :=
  let n := l.length
  pdqsortGo less n 0 n (bitsLen n) true true l

/-- The comparison closure passed to `sort.Slice` in `getTeamScores`:
`team[i].Total < team[j].Total`. -/
def lessPlayer (p q : Player) : Bool :=
  p.Total < q.Total

/-- Go `getTeamScores` from the point where the snapshot has been decoded:
compute the cut value, build and score the roster, sort by total, mark the
excluded players, and append the synthetic Total entry summed over
`team[:4]`.  `none` models a panic (a name with no space, or `team[:4]` on a
slice whose capacity is below 4, which happens when fewer than 3 roster
players matched the leaderboard). -/
def getTeamScores (lb : Leaderboard) (teamNames : List String) : Option (List Player) := do
  let cutVal := cutValOf lb
  let team0 ← buildTeam lb cutVal teamNames
  let team1 := sortSlice lessPlayer team0
  let team2 := markExcluded team1
  let slice4 ← sliceUpTo team2 4
  let r1Total := slice4.foldl (fun s p => s + p.R1) 0
  let r2Total := slice4.foldl (fun s p => s + p.R2) 0
  let r3Total := slice4.foldl (fun s p => s + p.R3) 0
  let r4Total := slice4.foldl (fun s p => s + p.R4) 0
  let grandTotal := slice4.foldl (fun s p => s + p.Total) 0
  let total : Player :=
    { FullName := "Total", R1 := r1Total, R2 := r2Total, R3 := r3Total, R4 := r4Total,
      Total := grandTotal, Excluded := false }
  pure (team2 ++ [total])

/-! ## Concrete snapshots used by witnesses and counterexamples -/

/-- A snapshot whose first cut line parses to 5, with a cut row carrying two
recorded rounds and a cut row carrying no rounds. -/
def lbCut5 : Leaderboard :=
  { cutLines := [⟨"+5"⟩],
    LeaderboardRows :=
      [ { FirstName := "A", LastName := "B", Total := "-4",
          Rounds := [⟨"-3"⟩, ⟨"+1"⟩], Position := "CUT" }
      , { FirstName := "C", LastName := "D", Total := "-2",
          Rounds := [⟨"-3"⟩, ⟨"+1"⟩, ⟨"0"⟩], Position := "T10" }
      , { FirstName := "E", LastName := "F", Total := "-2",
          Rounds := [], Position := "" }
      , { FirstName := "G", LastName := "H", Total := "+7",
          Rounds := [⟨"+3"⟩, ⟨"+4"⟩], Position := "2" }
      , { FirstName := "I", LastName := "J", Total := "-2",
          Rounds := [], Position := "cut" } ] }

/-- A leaderboard row for a player named "P lastName" with no recorded rounds
and the given total, used to build teams with prescribed totals. -/
def tieRow (lastName tot : String) : LeaderboardRow :=
  { FirstName := "P", LastName := lastName, Total := tot, Rounds := [], Position := "" }

/-- Thirteen players whose totals are 1 except two zeros: large enough that
`sort.Slice` leaves the insertion-sort path and loses stability. -/
def lb13 : Leaderboard :=
  { cutLines := [],
    LeaderboardRows :=
      [ tieRow "0" "1", tieRow "1" "1", tieRow "2" "1", tieRow "3" "0"
      , tieRow "4" "1", tieRow "5" "1", tieRow "6" "1", tieRow "7" "1"
      , tieRow "8" "1", tieRow "9" "1", tieRow "10" "1", tieRow "11" "1"
      , tieRow "12" "0" ] }

/-- The roster matching `lb13`, in leaderboard order. -/
def names13 : List String :=
  ["P 0", "P 1", "P 2", "P 3", "P 4", "P 5", "P 6", "P 7", "P 8", "P 9", "P 10", "P 11", "P 12"]

/-- The team produced by `getTeamScores` on `lb13`, defaulting to `[]`. -/
def res13 : List Player :=
  (getTeamScores lb13 names13).getD []

/-! ## Claims -/

/-- C1 counterexample: a row with position "CUT" and exactly two recorded
rounds, in a snapshot whose first cut line parses to 5, is scored with
R3 = R4 = 8 as claimed, but R1 and R2 are 0, not the parsed values of the two
recorded rounds (-3 and +1): the round loop ignores recorded rounds of cut
players. -/
theorem C1_cex :
    (scorePlayer "A B"
        { FirstName := "A", LastName := "B", Total := "-4",
          Rounds := [⟨"-3"⟩, ⟨"+1"⟩], Position := "CUT" } (cutValOf lbCut5)).R3 = 8
  ∧ (scorePlayer "A B"
        { FirstName := "A", LastName := "B", Total := "-4",
          Rounds := [⟨"-3"⟩, ⟨"+1"⟩], Position := "CUT" } (cutValOf lbCut5)).R4 = 8
  ∧ strokesInt "-3" = -3
  ∧ strokesInt "+1" = 1
  ∧ ¬ ((scorePlayer "A B"
        { FirstName := "A", LastName := "B", Total := "-4",
          Rounds := [⟨"-3"⟩, ⟨"+1"⟩], Position := "CUT" } (cutValOf lbCut5)).R1 = -3
      ∧ (scorePlayer "A B"
        { FirstName := "A", LastName := "B", Total := "-4",
          Rounds := [⟨"-3"⟩, ⟨"+1"⟩], Position := "CUT" } (cutValOf lbCut5)).R2 = 1) := by
  decide

/-- C1 amended: for every row whose position is "CUT" case-insensitively and
that has exactly two recorded rounds, in a snapshot whose first cut line
parses to 5, the scored player has R3 = R4 = 5 + 3 = 8, while R1 and R2 are 0
(the recorded rounds are ignored for cut players) and the total is 16. -/
theorem C1_amended (name : String) (found : LeaderboardRow) (lb : Leaderboard)
    (c0 : CutLine) (rest : List CutLine)
    (hcl : lb.cutLines = c0 :: rest) (hparse : parseCutScore c0.cutScore = 5)
    (hcut : toUpperGo found.Position = "CUT") (hlen : found.Rounds.length = 2) :
    scorePlayer name found (cutValOf lb) =
      { FullName := name, R1 := 0, R2 := 0, R3 := 8, R4 := 8, Total := 16, Excluded := false } := by
  have hcv : cutValOf lb = 8 := by simp [cutValOf, hcl, hparse]
  rw [hcv]
  simp [scorePlayer, applyRound, hcut, hlen]

/-- C1 amended witness at a concrete cut row with rounds -3 and +1. -/
theorem C1_witness :
    scorePlayer "A B"
      { FirstName := "A", LastName := "B", Total := "-4",
        Rounds := [⟨"-3"⟩, ⟨"+1"⟩], Position := "CUT" } (cutValOf lbCut5) =
      { FullName := "A B", R1 := 0, R2 := 0, R3 := 8, R4 := 8, Total := 16, Excluded := false } :=
  C1_amended "A B" _ lbCut5 ⟨"+5"⟩ [] (by decide) (by decide) (by decide) (by decide)

/-- C2 (code bug): the claim that team scoring never fails after a decoded
snapshot is contradicted by the code.  The roster loop itself does degrade
gracefully (a missing player is skipped, second conjunct), but when fewer
than three players match, `team[:4]` exceeds the slice capacity and panics:
the run dies (first and third conjuncts; the fourth pinpoints the slice). -/
theorem C2_bug :
    getTeamScores { cutLines := [], LeaderboardRows := [] } ["Tiger Woods"] = none
  ∧ buildTeam { cutLines := [], LeaderboardRows := [] } 0 ["Tiger Woods"] = some []
  ∧ getTeamScores lbCut5 ["C D", "G H"] = none
  ∧ sliceUpTo [] 4 = none := by
  decide

/-- C3 (code bug): a roster name with no space is reported, but the player is
not skipped: `splitName` still reads `split[1]` and panics, killing the run;
the remaining roster names are never processed.  The last conjunct shows the
same roster without the spaceless name succeeds (through the roster loop). -/
theorem C3_bug :
    splitName "Madonna" = none
  ∧ buildTeam lb13 (cutValOf lb13) ["P 0", "Madonna", "P 1"] = none
  ∧ getTeamScores lb13 ["P 0", "Madonna", "P 1"] = none
  ∧ buildTeam lb13 (cutValOf lb13) ["P 0", "P 1"] =
      some [scorePlayer "P 0" (tieRow "0" "1") (cutValOf lb13),
            scorePlayer "P 1" (tieRow "1" "1") (cutValOf lb13)] := by
  decide

/-- C8 counterexample: a matched entry with zero recorded rounds whose
position is "cut", in a snapshot with cut line "+5", gets R1 from the total
field as claimed, but R3 = R4 = 8, not 0: the zero-rounds fallback does not
zero the cut penalty. -/
theorem C8_cex :
    (scorePlayer "I J"
        { FirstName := "I", LastName := "J", Total := "-2", Rounds := [], Position := "cut" }
        (cutValOf lbCut5)).R1 = -2
  ∧ ¬ ((scorePlayer "I J"
        { FirstName := "I", LastName := "J", Total := "-2", Rounds := [], Position := "cut" }
        (cutValOf lbCut5)).R2 = 0
      ∧ (scorePlayer "I J"
        { FirstName := "I", LastName := "J", Total := "-2", Rounds := [], Position := "cut" }
        (cutValOf lbCut5)).R3 = 0
      ∧ (scorePlayer "I J"
        { FirstName := "I", LastName := "J", Total := "-2", Rounds := [], Position := "cut" }
        (cutValOf lbCut5)).R4 = 0) := by
  decide

/-- C8 amended: for every matched entry with zero recorded rounds whose
position is not "CUT" case-insensitively, the scored player has R1 equal to
the parsed total field, R2 = R3 = R4 = 0, and total equal to R1, whatever the
snapshot cut value is; in particular total "-2" yields R1 = -2, total = -2. -/
theorem C8_amended (name : String) (found : LeaderboardRow) (cutVal : Int)
    (hpos : ¬ toUpperGo found.Position = "CUT") (hlen : found.Rounds = []) :
    scorePlayer name found cutVal =
      { FullName := name, R1 := strokesInt found.Total, R2 := 0, R3 := 0, R4 := 0,
        Total := strokesInt found.Total, Excluded := false } := by
  simp [scorePlayer, applyRound, hpos, hlen]

/-- C8 amended witness: an entry with no rounds and total "-2" yields
R1 = -2, R2 = R3 = R4 = 0, total = -2. -/
theorem C8_witness :
    scorePlayer "E F"
      { FirstName := "E", LastName := "F", Total := "-2", Rounds := [], Position := "" } 8 =
      { FullName := "E F", R1 := -2, R2 := 0, R3 := 0, R4 := 0, Total := -2,
        Excluded := false } := by
  rw [C8_amended "E F"
    { FirstName := "E", LastName := "F", Total := "-2", Rounds := [], Position := "" } 8
    (by decide) rfl]
  decide

/-- C10: for a matched entry whose position is "CUT" case-insensitively and
that has zero recorded rounds, in a snapshot whose first cut line parses to
the absolute value of c, the zero-rounds fallback and the cut penalty
combine: R1 is the parsed total field, R2 = 0, R3 = R4 = abs c + 3, and the
total is the parsed total plus twice the penalty. -/
theorem C10_cut_zero_rounds (name : String) (found : LeaderboardRow) (lb : Leaderboard)
    (c0 : CutLine) (rest : List CutLine) (c : Int)
    (hcl : lb.cutLines = c0 :: rest) (hparse : parseCutScore c0.cutScore = |c|)
    (hcut : toUpperGo found.Position = "CUT") (hlen : found.Rounds = []) :
    scorePlayer name found (cutValOf lb) =
      { FullName := name, R1 := strokesInt found.Total, R2 := 0, R3 := |c| + 3, R4 := |c| + 3,
        Total := strokesInt found.Total + 2 * (|c| + 3), Excluded := false } := by
  have hcv : cutValOf lb = |c| + 3 := by simp [cutValOf, hcl, hparse]
  rw [hcv]
  simp [scorePlayer, applyRound, hcut, hlen]
  ring

/-- C10 witness: the cut row "I J" with no rounds and total "-2", under cut
line "-5" (which parses to the absolute value of -5): R1 = -2, R2 = 0,
R3 = R4 = 8, total = 14. -/
theorem C10_witness :
    scorePlayer "I J"
      { FirstName := "I", LastName := "J", Total := "-2", Rounds := [], Position := "cut" }
      (cutValOf { cutLines := [⟨"-5"⟩], LeaderboardRows := [] }) =
      { FullName := "I J", R1 := -2, R2 := 0, R3 := 8, R4 := 8, Total := 14,
        Excluded := false } := by
  rw [C10_cut_zero_rounds "I J"
    { FirstName := "I", LastName := "J", Total := "-2", Rounds := [], Position := "cut" }
    { cutLines := [⟨"-5"⟩], LeaderboardRows := [] } ⟨"-5"⟩ [] (-5) rfl (by decide)
    (by decide) rfl]
  decide

/-- C6 counterexample: on a thirteen-player roster the sort is not stable:
players "P 6" and "P 2" have equal totals but appear in the output in the
opposite of their roster order. -/
theorem C6_cex :
    getTeamScores lb13 names13 = some res13
  ∧ (res13.getD 2 zeroPlayer).FullName = "P 6"
  ∧ (res13.getD 3 zeroPlayer).FullName = "P 2"
  ∧ (res13.getD 2 zeroPlayer).Total = (res13.getD 3 zeroPlayer).Total
  ∧ names13.indexOf "P 2" < names13.indexOf "P 6" := by
  decide

/-- C4 counterexample: on a thirteen-player roster with a tie at the squad
boundary, the earlier-roster player "P 0" is excluded while the later-roster
player "P 6" with the same total counts: ties are not resolved in favor of
earlier roster order. -/
theorem C4_cex :
    getTeamScores lb13 names13 = some res13
  ∧ (res13.getD 6 zeroPlayer).FullName = "P 0"
  ∧ (res13.getD 6 zeroPlayer).Excluded = true
  ∧ (res13.getD 2 zeroPlayer).FullName = "P 6"
  ∧ (res13.getD 2 zeroPlayer).Excluded = false
  ∧ (res13.getD 6 zeroPlayer).Total = (res13.getD 2 zeroPlayer).Total
  ∧ names13.indexOf "P 0" < names13.indexOf "P 6" := by
  decide

/-- C9: a roster name that splits but matches no leaderboard row is omitted:
removing it from the roster changes nothing in the result of
`getTeamScores`, so it produces no scored player and leaves every other
player's rounds and total untouched. -/
theorem C9_missing_player_omitted (lb : Leaderboard) (n : String) (f l : String)
    (ns1 ns2 : List String)
    (hsplit : splitName n = some (f, l)) (hmiss : findRow lb.LeaderboardRows f l = none) :
    getTeamScores lb (ns1 ++ n :: ns2) = getTeamScores lb (ns1 ++ ns2) := by
  have hbuild : ∀ cv : Int, buildTeam lb cv (ns1 ++ n :: ns2) = buildTeam lb cv (ns1 ++ ns2) := by
    intro cv
    induction ns1 with
    | nil =>
      simp only [List.nil_append, buildTeam, hsplit, Option.bind_eq_bind, Option.some_bind]
      cases hb : buildTeam lb cv ns2 with
      | none => rfl
      | some team => simp [hmiss]
    | cons m ms ih =>
      simp only [List.cons_append, buildTeam, Option.bind_eq_bind]
      cases hm : splitName m with
      | none => rfl
      | some fl => simp [ih]
  simp only [getTeamScores]
  rw [hbuild]

/-- C9 witness: dropping the unmatched name "X Y" from a concrete roster
leaves the team result unchanged. -/
theorem C9_witness :
    getTeamScores lbCut5 (["A B", "C D"] ++ "X Y" :: ["E F", "G H"]) =
      getTeamScores lbCut5 (["A B", "C D"] ++ ["E F", "G H"]) :=
  C9_missing_player_omitted lbCut5 "X Y" "X" "Y" ["A B", "C D"] ["E F", "G H"]
    (by decide) (by decide)

/-! ## Permutation facts: every sort component only swaps elements -/

theorem dget_eq_getElem {α : Type} [Inhabited α] (l : List α) (i : Nat) (h : i < l.length) :
    dget l i = l[i] := by
  simp [dget, List.getD_eq_getElem?_getD, List.getElem?_eq_getElem h]

theorem dswap_length {α : Type} [Inhabited α] (l : List α) (i j : Nat) :
    (dswap l i j).length = l.length := by
  simp [dswap]

theorem set_self_eq {α : Type} (l : List α) (i : Nat) (h : i < l.length) :
    l.set i l[i] = l := by
  apply List.ext_getElem
  · simp
  · intro k h1 h2
    rw [List.getElem_set]
    split <;> simp_all

theorem cons_set_perm {α : Type} (xs : List α) (k : Nat) (x : α) (hk : k < xs.length) :
    List.Perm (xs[k] :: xs.set k x) (x :: xs) := by
  obtain ⟨l₁, l₂, hxs, hlen, hset⟩ := @List.exists_of_set _ k x xs hk
  have base : List.Perm (xs[k] :: xs.set k x) (x :: (l₁ ++ xs[k] :: l₂)) := by
    rw [hset]
    exact (List.Perm.cons _ List.perm_middle).trans
      ((List.Perm.swap _ _ _).trans (List.Perm.cons _ List.perm_middle.symm))
  rw [← hxs] at base
  exact base

theorem dswap_perm {α : Type} [Inhabited α] :
    ∀ (l : List α) (i j : Nat), i < l.length → j < l.length → List.Perm (dswap l i j) l := by
  have key : ∀ (l : List α) (k : Nat), k < l.length → ∀ (hl : 0 < l.length),
      List.Perm (dswap l 0 k) l := by
    intro l k hk hl
    match l, k with
    | x :: xs, 0 =>
      unfold dswap
      rw [dget_eq_getElem _ _ hk, List.set_set, set_self_eq _ _ hl]
    | x :: xs, k + 1 =>
      unfold dswap
      rw [dget_eq_getElem _ _ hk, dget_eq_getElem _ _ hl]
      simp only [List.getElem_cons_succ, List.getElem_cons_zero, List.set_cons_zero,
        List.set_cons_succ]
      exact cons_set_perm xs k x (by simpa using hk)
  intro l i j hi hj
  induction l generalizing i j with
  | nil => simp at hi
  | cons x xs ih =>
    match i, j with
    | 0, j => exact key (x :: xs) j hj hi
    | i + 1, 0 =>
      have hcomm : dswap (x :: xs) (i + 1) 0 = dswap (x :: xs) 0 (i + 1) := by
        unfold dswap
        rw [List.set_comm _ _ _ (by omega)]
      rw [hcomm]
      exact key (x :: xs) (i + 1) hi hj
    | i + 1, j + 1 =>
      have hstep : dswap (x :: xs) (i + 1) (j + 1) = x :: dswap xs i j := by
        unfold dswap
        rw [dget_eq_getElem _ _ hi, dget_eq_getElem _ _ hj]
        simp only [List.getElem_cons_succ, List.set_cons_succ]
        rw [dget_eq_getElem _ _ (by simpa using hj), dget_eq_getElem _ _ (by simpa using hi)]
      rw [hstep]
      exact .cons _ (ih i j (by simpa using hi) (by simpa using hj))

theorem insSortInner_perm {α : Type} [Inhabited α] (less : α → α → Bool) (a : Nat) :
    ∀ (j : Nat) (l : List α), j < l.length → List.Perm (insSortInner less a j l) l := by
  intro j
  induction j with
  | zero => intro l h; exact .refl _
  | succ j ih =>
    intro l h
    rw [insSortInner]
    split
    · exact (ih _ (by rw [dswap_length]; omega)).trans (dswap_perm l (j + 1) j h (by omega))
    · exact .refl _

theorem insSortOuter_perm {α : Type} [Inhabited α] (less : α → α → Bool) (a b : Nat) :
    ∀ (gas i : Nat) (l : List α), b ≤ l.length →
      List.Perm (insSortOuter less a b gas i l) l := by
  intro gas
  induction gas with
  | zero => intro i l h; exact .refl _
  | succ gas ih =>
    intro i l h
    rw [insSortOuter]
    split
    · rename_i hib
      have hinner := insSortInner_perm less a i l (by omega)
      exact (ih (i + 1) _ (by rw [hinner.length_eq]; exact h)).trans hinner
    · exact .refl _

theorem insertionSortGo_perm {α : Type} [Inhabited α] (less : α → α → Bool) (l : List α)
    (a b : Nat) (h : b ≤ l.length) : List.Perm (insertionSortGo less l a b) l :=
  insSortOuter_perm less a b (b - a) (a + 1) l h

theorem siftDownAux_perm {α : Type} [Inhabited α] (less : α → α → Bool) (first hi : Nat) :
    ∀ (gas root : Nat) (l : List α), first + hi ≤ l.length →
      List.Perm (siftDownAux less first hi gas root l) l := by
  intro gas
  induction gas with
  | zero => intro root l h; exact .refl _
  | succ gas ih =>
    intro root l h
    rw [siftDownAux]
    simp only
    have hcb : ∀ c0, c0 < hi → siftChild less first hi c0 l < hi := by
      intro c0 hc0
      unfold siftChild
      split <;> omega
    split
    · rename_i hchild
      split
      · rename_i hless
        refine (ih _ _ (by rw [dswap_length]; exact h)).trans (dswap_perm _ _ _ ?_ ?_)
        · omega
        · have := hcb (2 * root + 1) hchild
          omega
      · exact .refl _
    · exact .refl _

theorem heapBuild_perm {α : Type} [Inhabited α] (less : α → α → Bool) (first hi : Nat) :
    ∀ (cnt : Nat) (l : List α), first + hi ≤ l.length →
      List.Perm (heapBuild less first hi cnt l) l := by
  intro cnt
  induction cnt with
  | zero => intro l h; exact .refl _
  | succ i ih =>
    intro l h
    rw [heapBuild]
    have hs := siftDownAux_perm less first hi hi i l h
    exact (ih _ (by rw [hs.length_eq]; exact h)).trans hs

theorem heapPop_perm {α : Type} [Inhabited α] (less : α → α → Bool) (first : Nat) :
    ∀ (cnt : Nat) (l : List α), first + cnt ≤ l.length →
      List.Perm (heapPop less first cnt l) l := by
  intro cnt
  induction cnt with
  | zero => intro l h; exact .refl _
  | succ i ih =>
    intro l h
    rw [heapPop]
    have hsw := dswap_perm l first (first + i) (by omega) (by omega)
    have hs := (siftDownAux_perm less first i i 0 (dswap l first (first + i))
      (by rw [dswap_length]; omega)).trans hsw
    exact (ih _ (by rw [hs.length_eq]; omega)).trans hs

theorem heapSortGo_perm {α : Type} [Inhabited α] (less : α → α → Bool) (l : List α)
    (a b : Nat) (hab : a < b) (h : b ≤ l.length) : List.Perm (heapSortGo less l a b) l := by
  unfold heapSortGo
  have hb := heapBuild_perm less a (b - a) ((b - a - 1) / 2 + 1) l (by omega)
  exact (heapPop_perm less a (b - a) _ (by rw [hb.length_eq]; omega)).trans hb

theorem revRange_perm {α : Type} [Inhabited α] :
    ∀ (gas i j : Nat) (l : List α), (i < j → j < l.length) →
      List.Perm (revRange gas i j l) l := by
  intro gas
  induction gas with
  | zero => intro i j l h; exact .refl _
  | succ gas ih =>
    intro i j l h
    rw [revRange]
    split
    · rename_i hij
      have hj := h hij
      have hsw := dswap_perm l i j (by omega) hj
      refine (ih (i + 1) (j - 1) _ ?_).trans hsw
      intro h2
      rw [dswap_length]
      omega
    · exact .refl _

theorem reverseRangeGo_perm {α : Type} [Inhabited α] (l : List α) (a b : Nat)
    (h : b ≤ l.length) : List.Perm (reverseRangeGo l a b) l := by
  unfold reverseRangeGo
  exact revRange_perm (b - a) a (b - 1) l (by omega)

theorem pInsScan_le {α : Type} [Inhabited α] (less : α → α → Bool) (b : Nat) :
    ∀ (gas i : Nat) (l : List α), i ≤ b → pInsScan less b gas i l ≤ b := by
  intro gas
  induction gas with
  | zero => intro i l h; exact h
  | succ gas ih =>
    intro i l h
    rw [pInsScan]
    split
    · rename_i hc
      exact ih (i + 1) l (by omega)
    · exact h

theorem shiftLeft_perm {α : Type} [Inhabited α] (less : α → α → Bool) :
    ∀ (gas j : Nat) (l : List α), j < l.length →
      List.Perm (shiftLeft less gas j l) l := by
  intro gas
  induction gas with
  | zero => intro j l h; exact .refl _
  | succ gas ih =>
    intro j l h
    rw [shiftLeft]
    split
    · split
      · rename_i h1 hless
        exact (ih (j - 1) _ (by rw [dswap_length]; omega)).trans
          (dswap_perm l j (j - 1) h (by omega))
      · exact .refl _
    · exact .refl _

theorem shiftRight_perm {α : Type} [Inhabited α] (less : α → α → Bool) (b : Nat) :
    ∀ (gas j : Nat) (l : List α), b ≤ l.length →
      List.Perm (shiftRight less b gas j l) l := by
  intro gas
  induction gas with
  | zero => intro j l h; exact .refl _
  | succ gas ih =>
    intro j l h
    rw [shiftRight]
    split
    · split
      · rename_i h1 hless
        exact (ih (j + 1) _ (by rw [dswap_length]; exact h)).trans
          (dswap_perm l j (j - 1) (by omega) (by omega))
      · exact .refl _
    · exact .refl _

theorem pInsSortSteps_perm {α : Type} [Inhabited α] (less : α → α → Bool) (a b : Nat) :
    ∀ (steps i : Nat) (l : List α), b ≤ l.length → i ≤ b →
      List.Perm (pInsSortSteps less a b steps i l).2 l := by
  intro steps
  induction steps with
  | zero => intro i l h hi; exact .refl _
  | succ steps ih =>
    intro i l h hi
    rw [pInsSortSteps]
    simp only
    set i2 := pInsScan less b b i l with hi2def
    split
    · exact .refl _
    · split
      · exact .refl _
      · rename_i hne h50
        have hscan : i2 ≤ b := pInsScan_le less b b i l hi
        have hi2b : i2 < b := by omega
        set l1 := dswap l i2 (i2 - 1) with hl1def
        have hp1 : List.Perm l1 l := dswap_perm l i2 (i2 - 1) (by omega) (by omega)
        set l2 := if 2 ≤ i2 - a then shiftLeft less (i2 - 1) (i2 - 1) l1 else l1 with hl2def
        have hp2 : List.Perm l2 l := by
          rw [hl2def]
          split
          · exact (shiftLeft_perm less _ _ _ (by rw [hp1.length_eq]; omega)).trans hp1
          · exact hp1
        set l3 := if 2 ≤ b - i2 then shiftRight less b (b - (i2 + 1)) (i2 + 1) l2 else l2
          with hl3def
        have hp3 : List.Perm l3 l := by
          rw [hl3def]
          split
          · exact (shiftRight_perm less b _ _ _ (by rw [hp2.length_eq]; exact h)).trans hp2
          · exact hp2
        exact (ih i2 l3 (by rw [hp3.length_eq]; exact h) (by omega)).trans hp3

theorem pInsSortGo_perm {α : Type} [Inhabited α] (less : α → α → Bool) (l : List α)
    (a b : Nat) (h : b ≤ l.length) : List.Perm (pInsSortGo less l a b).2 l := by
  unfold pInsSortGo
  rcases le_or_lt (a + 1) b with hab | hab
  · exact pInsSortSteps_perm less a b 5 (a + 1) l h hab
  · rw [pInsSortSteps]
    simp only
    split
    · exact .refl _
    · split
      · exact .refl _
      · omega

theorem partScanI_ge {α : Type} [Inhabited α] (less : α → α → Bool) (l : List α) (aIdx : Nat) :
    ∀ (gas i j : Nat), i ≤ partScanI less l aIdx gas i j := by
  intro gas
  induction gas with
  | zero => intro i j; exact Nat.le_refl i
  | succ gas ih =>
    intro i j
    rw [partScanI]
    split
    · exact Nat.le_trans (Nat.le_succ i) (ih (i + 1) j)
    · exact Nat.le_refl i

theorem partScanI_le {α : Type} [Inhabited α] (less : α → α → Bool) (l : List α) (aIdx b : Nat) :
    ∀ (gas i j : Nat), i ≤ b → j < b → partScanI less l aIdx gas i j ≤ b := by
  intro gas
  induction gas with
  | zero => intro i j hi hj; exact hi
  | succ gas ih =>
    intro i j hi hj
    rw [partScanI]
    split
    · rename_i hc
      exact ih (i + 1) j (by omega) hj
    · exact hi

theorem partScanJ_le {α : Type} [Inhabited α] (less : α → α → Bool) (l : List α) (aIdx : Nat) :
    ∀ (gas i j : Nat), partScanJ less l aIdx gas i j ≤ j := by
  intro gas
  induction gas with
  | zero => intro i j; exact Nat.le_refl j
  | succ gas ih =>
    intro i j
    rw [partScanJ]
    split
    · exact Nat.le_trans (ih i (j - 1)) (by omega)
    · exact Nat.le_refl j

theorem partScanJ_ge {α : Type} [Inhabited α] (less : α → α → Bool) (l : List α) (aIdx : Nat) :
    ∀ (gas i j : Nat), min (i - 1) j ≤ partScanJ less l aIdx gas i j := by
  intro gas
  induction gas with
  | zero => intro i j; exact Nat.min_le_right _ _
  | succ gas ih =>
    intro i j
    rw [partScanJ]
    split
    · rename_i hc
      have := ih i (j - 1)
      omega
    · exact Nat.min_le_right _ _

theorem partLoop_perm {α : Type} [Inhabited α] (less : α → α → Bool) (aIdx b : Nat) :
    ∀ (gas i j : Nat) (l : List α), b ≤ l.length → i ≤ b → j < b →
      List.Perm (partLoop less aIdx b gas i j l).1 l ∧ (partLoop less aIdx b gas i j l).2 ≤ j := by
  intro gas
  induction gas with
  | zero => intro i j l h hi hj; exact ⟨.refl _, Nat.le_refl j⟩
  | succ gas ih =>
    intro i j l h hi hj
    rw [partLoop]
    set i2 := partScanI less l aIdx b i j with hi2def
    set j2 := partScanJ less l aIdx b i2 j with hj2def
    have hi2le : i2 ≤ b := partScanI_le less l aIdx b b i j hi hj
    have hj2le : j2 ≤ j := partScanJ_le less l aIdx b i2 j
    split
    · exact ⟨.refl _, hj2le⟩
    · rename_i hgt
      have hij : i2 ≤ j2 := by omega
      have hsw : List.Perm (dswap l i2 j2) l :=
        dswap_perm l i2 j2 (by omega) (by omega)
      have hrec := ih (i2 + 1) (j2 - 1) (dswap l i2 j2)
        (by rw [dswap_length]; exact h) (by omega) (by omega)
      exact ⟨hrec.1.trans hsw, by omega⟩

theorem partLoop_ge {α : Type} [Inhabited α] (less : α → α → Bool) (aIdx b : Nat) :
    ∀ (gas i j : Nat) (l : List α), aIdx < i → aIdx ≤ j →
      aIdx ≤ (partLoop less aIdx b gas i j l).2 := by
  intro gas
  induction gas with
  | zero => intro i j l hi hj; exact hj
  | succ gas ih =>
    intro i j l hi hj
    rw [partLoop]
    set i2 := partScanI less l aIdx b i j with hi2def
    set j2 := partScanJ less l aIdx b i2 j with hj2def
    have hi2ge : i ≤ i2 := partScanI_ge less l aIdx b i j
    have hj2ge : min (i2 - 1) j ≤ j2 := partScanJ_ge less l aIdx b i2 j
    split
    · omega
    · rename_i hgt
      exact ih (i2 + 1) (j2 - 1) _ (by omega) (by omega)

theorem partitionGo_spec {α : Type} [Inhabited α] (less : α → α → Bool) (l : List α)
    (a b pivot : Nat) (hab : a < b) (hb : b ≤ l.length) (hpa : a ≤ pivot) (hpb : pivot < b) :
    List.Perm (partitionGo less l a b pivot).1 l
  ∧ a ≤ (partitionGo less l a b pivot).2.1 ∧ (partitionGo less l a b pivot).2.1 < b := by
  unfold partitionGo
  simp only
  set l0 := dswap l a pivot with hl0def
  have hp0 : List.Perm l0 l := dswap_perm l a pivot (by omega) (by omega)
  have hlen0 : l0.length = l.length := hp0.length_eq
  set i0 := partScanI less l0 a b (a + 1) (b - 1) with hi0def
  set j0 := partScanJ less l0 a b i0 (b - 1) with hj0def
  have hi0ge : a + 1 ≤ i0 := partScanI_ge less l0 a b (a + 1) (b - 1)
  have hi0le : i0 ≤ b := partScanI_le less l0 a b b (a + 1) (b - 1) (by omega) (by omega)
  have hj0le : j0 ≤ b - 1 := partScanJ_le less l0 a b i0 (b - 1)
  have hj0ge : min (i0 - 1) (b - 1) ≤ j0 := partScanJ_ge less l0 a b i0 (b - 1)
  split
  · rename_i hgt
    refine ⟨(dswap_perm l0 j0 a (by omega) (by omega)).trans hp0, ?_, ?_⟩
    · show a ≤ j0
      omega
    · show j0 < b
      omega
  · rename_i hle
    have hij : i0 ≤ j0 := by omega
    set lsw := dswap l0 i0 j0 with hlswdef
    have hpsw : List.Perm lsw l0 := dswap_perm l0 i0 j0 (by omega) (by omega)
    have hloop := partLoop_perm less a b b (i0 + 1) (j0 - 1) lsw
      (by rw [hpsw.length_eq, hlen0]; exact hb) (by omega) (by omega)
    have hge := partLoop_ge less a b b (i0 + 1) (j0 - 1) lsw (by omega) (by omega)
    refine ⟨?_, ?_, ?_⟩
    case refine_2 =>
      show a ≤ (partLoop less a b b (i0 + 1) (j0 - 1) lsw).2
      omega
    case refine_3 =>
      show (partLoop less a b b (i0 + 1) (j0 - 1) lsw).2 < b
      omega
    exact ((dswap_perm _ _ _ (by rw [hloop.1.length_eq, hpsw.length_eq, hlen0]; omega)
      (by rw [hloop.1.length_eq, hpsw.length_eq, hlen0]; omega)).trans
      (hloop.1.trans (hpsw.trans hp0)))

theorem peqScanI_ge {α : Type} [Inhabited α] (less : α → α → Bool) (l : List α) (aIdx : Nat) :
    ∀ (gas i j : Nat), i ≤ peqScanI less l aIdx gas i j := by
  intro gas
  induction gas with
  | zero => intro i j; exact Nat.le_refl i
  | succ gas ih =>
    intro i j
    rw [peqScanI]
    split
    · exact Nat.le_trans (Nat.le_succ i) (ih (i + 1) j)
    · exact Nat.le_refl i

theorem peqScanI_le {α : Type} [Inhabited α] (less : α → α → Bool) (l : List α) (aIdx b : Nat) :
    ∀ (gas i j : Nat), i ≤ b → j < b → peqScanI less l aIdx gas i j ≤ b := by
  intro gas
  induction gas with
  | zero => intro i j hi hj; exact hi
  | succ gas ih =>
    intro i j hi hj
    rw [peqScanI]
    split
    · rename_i hc
      exact ih (i + 1) j (by omega) hj
    · exact hi

theorem peqScanJ_le {α : Type} [Inhabited α] (less : α → α → Bool) (l : List α) (aIdx : Nat) :
    ∀ (gas i j : Nat), peqScanJ less l aIdx gas i j ≤ j := by
  intro gas
  induction gas with
  | zero => intro i j; exact Nat.le_refl j
  | succ gas ih =>
    intro i j
    rw [peqScanJ]
    split
    · exact Nat.le_trans (ih i (j - 1)) (by omega)
    · exact Nat.le_refl j

theorem peqLoop_spec {α : Type} [Inhabited α] (less : α → α → Bool) (aIdx b : Nat) :
    ∀ (gas i j : Nat) (l : List α), b ≤ l.length → i ≤ b → j < b →
      List.Perm (peqLoop less aIdx b gas i j l).1 l ∧ (peqLoop less aIdx b gas i j l).2 ≤ b := by
  intro gas
  induction gas with
  | zero => intro i j l h hi hj; exact ⟨.refl _, hi⟩
  | succ gas ih =>
    intro i j l h hi hj
    rw [peqLoop]
    set i2 := peqScanI less l aIdx b i j with hi2def
    set j2 := peqScanJ less l aIdx b i2 j with hj2def
    have hi2le : i2 ≤ b := peqScanI_le less l aIdx b b i j hi hj
    have hj2le : j2 ≤ j := peqScanJ_le less l aIdx b i2 j
    split
    · exact ⟨.refl _, hi2le⟩
    · rename_i hgt
      have hij : i2 ≤ j2 := by omega
      have hsw : List.Perm (dswap l i2 j2) l := dswap_perm l i2 j2 (by omega) (by omega)
      have hrec := ih (i2 + 1) (j2 - 1) (dswap l i2 j2)
        (by rw [dswap_length]; exact h) (by omega) (by omega)
      exact ⟨hrec.1.trans hsw, hrec.2⟩

theorem partitionEqualGo_spec {α : Type} [Inhabited α] (less : α → α → Bool) (l : List α)
    (a b pivot : Nat) (hab : a < b) (hb : b ≤ l.length) (hpb : pivot < b) :
    List.Perm (partitionEqualGo less l a b pivot).1 l
  ∧ (partitionEqualGo less l a b pivot).2 ≤ b := by
  unfold partitionEqualGo
  simp only
  set l0 := dswap l a pivot with hl0def
  have hp0 : List.Perm l0 l := dswap_perm l a pivot (by omega) (by omega)
  have := peqLoop_spec less a b b (a + 1) (b - 1) l0
    (by rw [hp0.length_eq]; exact hb) (by omega) (by omega)
  exact ⟨this.1.trans hp0, this.2⟩

theorem bitsLenAux_pow_le (gas : Nat) : ∀ (n : Nat), n ≤ gas → 1 ≤ n →
    2 ^ bitsLenAux gas n ≤ 2 * n := by
  induction gas with
  | zero => intro n h h1; omega
  | succ gas ih =>
    intro n h h1
    rw [bitsLenAux]
    split
    · omega
    · rename_i hne
      rcases Nat.lt_or_ge n 2 with h2 | h2
      · have hn1 : n = 1 := by omega
        subst hn1
        have : bitsLenAux gas 0 = 0 := by
          cases gas with
          | zero => rfl
          | succ g => rw [bitsLenAux]; simp
        simp [this]
      · have hrec := ih (n / 2) (by omega) (by omega)
        calc 2 ^ (bitsLenAux gas (n / 2) + 1) = 2 * 2 ^ bitsLenAux gas (n / 2) := by ring
          _ ≤ 2 * (2 * (n / 2)) := by omega
          _ ≤ 2 * n := by omega

theorem nextPowerOfTwo_le (n : Nat) (h : 1 ≤ n) : nextPowerOfTwo n ≤ 2 * n := by
  unfold nextPowerOfTwo bitsLen
  rw [Nat.shiftLeft_eq, Nat.one_mul]
  exact bitsLenAux_pow_le n n (Nat.le_refl n) h

theorem breakPatternsGo_perm {α : Type} [Inhabited α] (l : List α) (a b : Nat)
    (hb : b ≤ l.length) : List.Perm (breakPatternsGo l a b) l := by
  rw [breakPatternsGo]
  dsimp only
  split
  · rename_i h8
    have hmod : nextPowerOfTwo (b - a) ≤ 2 * (b - a) := nextPowerOfTwo_le (b - a) (by omega)
    have hofix : ∀ r : Nat,
        (if b - a ≤ r &&& (nextPowerOfTwo (b - a) - 1) then
          (r &&& (nextPowerOfTwo (b - a) - 1)) - (b - a)
         else r &&& (nextPowerOfTwo (b - a) - 1)) < b - a := by
      intro r
      have hand : r &&& (nextPowerOfTwo (b - a) - 1) ≤ nextPowerOfTwo (b - a) - 1 :=
        Nat.and_le_right
      set o := r &&& (nextPowerOfTwo (b - a) - 1) with hodef
      set m := nextPowerOfTwo (b - a) with hmdef
      split <;> omega
    have h1 := hofix (xorshiftNext (b - a))
    have h2 := hofix (xorshiftNext (xorshiftNext (b - a)))
    have h3 := hofix (xorshiftNext (xorshiftNext (xorshiftNext (b - a))))
    refine (dswap_perm _ _ _ ?_ ?_).trans
      ((dswap_perm _ _ _ ?_ ?_).trans (dswap_perm _ _ _ ?_ ?_))
    all_goals try simp only [dswap_length]
    all_goals omega
  · exact .refl _

theorem medianIdx_mem {α : Type} [Inhabited α] (less : α → α → Bool) (l : List α)
    (a b c s : Nat) :
    (medianIdx less l a b c s).1 = a ∨ (medianIdx less l a b c s).1 = b
  ∨ (medianIdx less l a b c s).1 = c := by
  unfold medianIdx order2
  dsimp only
  split <;> dsimp only
  all_goals try (split <;> dsimp only)
  all_goals try (split <;> dsimp only)
  all_goals simp

theorem medianAdjacent_mem {α : Type} [Inhabited α] (less : α → α → Bool) (l : List α)
    (a s : Nat) :
    (medianAdjacent less l a s).1 = a - 1 ∨ (medianAdjacent less l a s).1 = a
  ∨ (medianAdjacent less l a s).1 = a + 1 :=
  medianIdx_mem less l (a - 1) a (a + 1) s

theorem hintSel_fst (m : Nat × Nat) :
    (if m.2 = 0 then (m.1, SortedHint.increasing)
      else if m.2 = 12 then (m.1, SortedHint.decreasing) else (m.1, SortedHint.unknown)).1
    = m.1 := by
  split
  · rfl
  · split <;> rfl

theorem choosePivot_bounds {α : Type} [Inhabited α] (less : α → α → Bool) (l : List α)
    (a b : Nat) (hab : a < b) :
    a ≤ (choosePivot less l a b).1 ∧ (choosePivot less l a b).1 < b := by
  unfold choosePivot
  dsimp only
  split
  · rename_i h8
    split
    · rename_i h50
      dsimp only
      set s1 := medianAdjacent less l (a + (b - a) / 4 * 1) 0 with hs1
      set s2 := medianAdjacent less l (a + (b - a) / 4 * 2) s1.2 with hs2
      set s3 := medianAdjacent less l (a + (b - a) / 4 * 3) s2.2 with hs3
      have hi := medianAdjacent_mem less l (a + (b - a) / 4 * 1) 0
      rw [← hs1] at hi
      have hj := medianAdjacent_mem less l (a + (b - a) / 4 * 2) s1.2
      rw [← hs2] at hj
      have hk := medianAdjacent_mem less l (a + (b - a) / 4 * 3) s2.2
      rw [← hs3] at hk
      have hm := medianIdx_mem less l s1.1 s2.1 s3.1 s3.2
      set m := medianIdx less l s1.1 s2.1 s3.1 s3.2 with hsm
      clear_value s1 s2 s3 m
      clear hs1 hs2 hs3 hsm
      rw [hintSel_fst m]
      omega
    · rename_i h50
      dsimp only
      have hm := medianIdx_mem less l (a + (b - a) / 4 * 1) (a + (b - a) / 4 * 2)
        (a + (b - a) / 4 * 3) 0
      set m := medianIdx less l (a + (b - a) / 4 * 1) (a + (b - a) / 4 * 2)
        (a + (b - a) / 4 * 3) 0 with hsm
      clear_value m
      clear hsm
      rw [hintSel_fst m]
      omega
  · rename_i h8
    dsimp only
    omega

theorem pdqBreak_perm {α : Type} [Inhabited α] (wb : Bool) (l : List α) (a b limit : Nat)
    (hb : b ≤ l.length) : List.Perm (pdqBreak wb l a b limit).1 l := by
  unfold pdqBreak
  split
  · exact breakPatternsGo_perm l a b hb
  · exact .refl _

theorem pdqPivot_spec {α : Type} [Inhabited α] (less : α → α → Bool) (l : List α) (a b : Nat)
    (hab : a < b) (hb : b ≤ l.length) :
    List.Perm (pdqPivot less l a b).2.2 l
  ∧ a ≤ (pdqPivot less l a b).1 ∧ (pdqPivot less l a b).1 < b := by
  unfold pdqPivot
  have hcp := choosePivot_bounds less l a b hab
  dsimp only
  split
  · exact ⟨reverseRangeGo_perm l a b hb, by omega, by omega⟩
  · exact ⟨.refl _, by omega, by omega⟩

theorem pdqCheck_perm {α : Type} [Inhabited α] (less : α → α → Bool) (wb wp : Bool)
    (hint : SortedHint) (l : List α) (a b : Nat) (hb : b ≤ l.length) :
    List.Perm (pdqCheck less wb wp hint l a b).2 l := by
  unfold pdqCheck
  split
  · exact pInsSortGo_perm less l a b hb
  · exact .refl _

theorem pdqsortGo_perm {α : Type} [Inhabited α] (less : α → α → Bool) :
    ∀ (gas a b limit : Nat) (wb wp : Bool) (l : List α), b ≤ l.length →
      List.Perm (pdqsortGo less gas a b limit wb wp l) l := by
  intro gas
  induction gas with
  | zero => intro a b limit wb wp l hb; exact .refl _
  | succ gas ih =>
    intro a b limit wb wp l hb
    rw [pdqsortGo]
    dsimp only
    split
    · exact insertionSortGo_perm less l a b hb
    · rename_i hlen
      split
      · exact heapSortGo_perm less l a b (by omega) hb
      · rename_i hlim
        have hp1 : List.Perm (pdqBreak wb l a b limit).1 l := pdqBreak_perm wb l a b limit hb
        have hlen1 : b ≤ (pdqBreak wb l a b limit).1.length := by
          rw [hp1.length_eq]; exact hb
        have hp2 := pdqPivot_spec less (pdqBreak wb l a b limit).1 a b (by omega) hlen1
        have hlen2 : b ≤ (pdqPivot less (pdqBreak wb l a b limit).1 a b).2.2.length := by
          rw [hp2.1.length_eq]; exact hlen1
        have hp3 := pdqCheck_perm less wb wp
          (pdqPivot less (pdqBreak wb l a b limit).1 a b).2.1
          (pdqPivot less (pdqBreak wb l a b limit).1 a b).2.2 a b hlen2
        set sc := pdqCheck less wb wp
          (pdqPivot less (pdqBreak wb l a b limit).1 a b).2.1
          (pdqPivot less (pdqBreak wb l a b limit).1 a b).2.2 a b with hscdef
        have hall : List.Perm sc.2 l := hp3.trans (hp2.1.trans hp1)
        have hlen3 : b ≤ sc.2.length := by rw [hall.length_eq]; exact hb
        split
        · exact hall
        · split
          · have hpeq := partitionEqualGo_spec less sc.2 a b
              (pdqPivot less (pdqBreak wb l a b limit).1 a b).1 (by omega) hlen3 (by omega)
            exact (ih _ b _ _ _ _ (by rw [hpeq.1.length_eq]; exact hlen3)).trans
              (hpeq.1.trans hall)
          · have hpart := partitionGo_spec less sc.2 a b
              (pdqPivot less (pdqBreak wb l a b limit).1 a b).1 (by omega) hlen3
              (by omega) (by omega)
            set r := partitionGo less sc.2 a b
              (pdqPivot less (pdqBreak wb l a b limit).1 a b).1 with hrdef
            split
            · have hinner := ih a r.2.1 (pdqBreak wb l a b limit).2 true true r.1 (by rw [hpart.1.length_eq]; omega)
              exact (ih _ b _ _ _ _
                (by rw [hinner.length_eq, hpart.1.length_eq]; exact hlen3)).trans
                (hinner.trans (hpart.1.trans hall))
            · have hinner := ih (r.2.1 + 1) b (pdqBreak wb l a b limit).2 true true r.1
                (by rw [hpart.1.length_eq]; exact hlen3)
              exact (ih a r.2.1 _ _ _ _
                (by rw [hinner.length_eq, hpart.1.length_eq]; omega)).trans
                (hinner.trans (hpart.1.trans hall))

theorem sortSlice_perm {α : Type} [Inhabited α] (less : α → α → Bool) (l : List α) :
    List.Perm (sortSlice less l) l := by
  unfold sortSlice
  exact pdqsortGo_perm less l.length 0 l.length (bitsLen l.length) true true l
    (Nat.le_refl _)

theorem sortSlice_length {α : Type} [Inhabited α] (less : α → α → Bool) (l : List α) :
    (sortSlice less l).length = l.length :=
  (sortSlice_perm less l).length_eq

theorem mem_sortSlice {α : Type} [Inhabited α] (less : α → α → Bool) (l : List α) (x : α) :
    x ∈ sortSlice less l ↔ x ∈ l :=
  (sortSlice_perm less l).mem_iff

/-! ## Structure of the team result -/

/-- The synthetic Total entry of `getTeamScores`, summed over a slice. -/
def mkTotal (slice4 : List Player) : Player :=
  { FullName := "Total",
    R1 := slice4.foldl (fun s p => s + p.R1) 0,
    R2 := slice4.foldl (fun s p => s + p.R2) 0,
    R3 := slice4.foldl (fun s p => s + p.R3) 0,
    R4 := slice4.foldl (fun s p => s + p.R4) 0,
    Total := slice4.foldl (fun s p => s + p.Total) 0,
    Excluded := false }

theorem getTeamScores_eq_some (lb : Leaderboard) (names : List String) (res : List Player) :
    getTeamScores lb names = some res ↔
      ∃ team0 slice4,
        buildTeam lb (cutValOf lb) names = some team0 ∧
        sliceUpTo (markExcluded (sortSlice lessPlayer team0)) 4 = some slice4 ∧
        res = markExcluded (sortSlice lessPlayer team0) ++ [mkTotal slice4] := by
  unfold getTeamScores mkTotal
  cases hb : buildTeam lb (cutValOf lb) names with
  | none => simp [hb]
  | some team0 =>
    cases hs : sliceUpTo (markExcluded (sortSlice lessPlayer team0)) 4 with
    | none => simp [hb, hs]
    | some slice4 =>
      simp [hb, hs]
      exact eq_comm

theorem applyRound_keeps (found : LeaderboardRow) (isCut : Bool) (cutVal : Int)
    (p : Player) (i : Nat) :
    (applyRound found isCut cutVal p i).Excluded = p.Excluded
  ∧ (applyRound found isCut cutVal p i).FullName = p.FullName := by
  unfold applyRound
  split
  · rcases i with _ | _ | _ | _ | i <;> simp
  · split
    · rcases i with _ | _ | _ | _ | i <;> simp
    · simp

theorem scorePlayer_excluded (name : String) (found : LeaderboardRow) (cutVal : Int) :
    (scorePlayer name found cutVal).Excluded = false := by
  unfold scorePlayer
  dsimp only
  rw [List.foldl_cons, List.foldl_cons, List.foldl_cons, List.foldl_cons, List.foldl_nil]
  have h0 := applyRound_keeps found (decide (toUpperGo found.Position = "CUT")) cutVal
  split <;> simp [(h0 _ _).1]

theorem scorePlayer_total (name : String) (found : LeaderboardRow) (cutVal : Int) :
    (scorePlayer name found cutVal).Total =
      (scorePlayer name found cutVal).R1 + (scorePlayer name found cutVal).R2
    + (scorePlayer name found cutVal).R3 + (scorePlayer name found cutVal).R4 := rfl

theorem buildTeam_mem (lb : Leaderboard) (cutVal : Int) :
    ∀ (names : List String) (team : List Player), buildTeam lb cutVal names = some team →
      ∀ p ∈ team, ∃ name row, p = scorePlayer name row cutVal := by
  intro names
  induction names with
  | nil =>
    intro team h p hp
    simp [buildTeam] at h
    subst h
    simp at hp
  | cons name rest ih =>
    intro team h p hp
    simp only [buildTeam, Option.bind_eq_bind] at h
    cases hsplit : splitName name with
    | none => rw [hsplit] at h; simp at h
    | some fl =>
      rw [hsplit] at h
      simp only [Option.some_bind] at h
      cases hrest : buildTeam lb cutVal rest with
      | none => rw [hrest] at h; simp at h
      | some team2 =>
        rw [hrest] at h
        simp only [Option.some_bind] at h
        cases hfind : findRow lb.LeaderboardRows fl.1 fl.2 with
        | none =>
          rw [hfind] at h
          simp only [Option.pure_def, Option.some.injEq] at h
          subst h
          exact ih team2 hrest p hp
        | some row =>
          rw [hfind] at h
          simp only [Option.pure_def, Option.some.injEq] at h
          subst h
          rcases List.mem_cons.mp hp with hpe | hpm
          · exact ⟨name, row, hpe⟩
          · exact ih team2 hrest p hpm

theorem mem_markExcluded (t : List Player) (p : Player) (hp : p ∈ markExcluded t) :
    ∃ q ∈ t, p = q ∨ p = { q with Excluded := true } := by
  unfold markExcluded at hp
  rcases List.mem_append.mp hp with h | h
  · exact ⟨p, List.mem_of_mem_take h, Or.inl rfl⟩
  · rcases List.mem_map.mp h with ⟨q, hq, hpq⟩
    exact ⟨q, List.mem_of_mem_drop hq, Or.inr hpq.symm⟩

theorem mem_sliceUpTo (t : List Player) (k : Nat) (slice : List Player)
    (h : sliceUpTo t k = some slice) (p : Player) (hp : p ∈ slice) :
    p ∈ t ∨ p = zeroPlayer := by
  unfold sliceUpTo at h
  split at h
  · have hsl : slice = t.take k := by
      injection h with h2
      exact h2.symm
    subst hsl
    exact Or.inl (List.mem_of_mem_take hp)
  · split at h
    · have hsl : slice = t ++ List.replicate (k - t.length) zeroPlayer := by
        injection h with h2
        exact h2.symm
      subst hsl
      rcases List.mem_append.mp hp with h3 | h3
      · exact Or.inl h3
      · exact Or.inr (List.eq_of_mem_replicate h3)
    · exact absurd h (by simp)

theorem foldl_add_eq (f : Player → Int) :
    ∀ (l : List Player) (s : Int), l.foldl (fun a p => a + f p) s = s + (l.map f).sum := by
  intro l
  induction l with
  | nil => intro s; simp
  | cons x xs ih =>
    intro s
    rw [List.foldl_cons, List.map_cons, List.sum_cons, ih]
    ring

theorem sum_totals_of_inv (l : List Player)
    (hl : ∀ p ∈ l, p.Total = p.R1 + p.R2 + p.R3 + p.R4) :
    (l.map Player.Total).sum =
      (l.map Player.R1).sum + (l.map Player.R2).sum
    + (l.map Player.R3).sum + (l.map Player.R4).sum := by
  induction l with
  | nil => simp
  | cons x xs ih =>
    simp only [List.map_cons, List.sum_cons]
    rw [hl x (List.mem_cons_self x xs), ih (fun p hp => hl p (List.mem_cons_of_mem _ hp))]
    ring

/-- C7: every scored player the team scorer produces, the synthetic Total
entry included, has its total field equal to the sum of its four round
fields. -/
theorem C7_total_eq_sum (lb : Leaderboard) (names : List String) (res : List Player)
    (h : getTeamScores lb names = some res) :
    ∀ p ∈ res, p.Total = p.R1 + p.R2 + p.R3 + p.R4 := by
  obtain ⟨team0, slice4, hb, hs, hres⟩ := (getTeamScores_eq_some lb names res).mp h
  have hteam0 : ∀ p ∈ team0, p.Total = p.R1 + p.R2 + p.R3 + p.R4 := by
    intro p hp
    obtain ⟨n, row, rfl⟩ := buildTeam_mem lb (cutValOf lb) names team0 hb p hp
    exact scorePlayer_total n row (cutValOf lb)
  have hteam2 : ∀ p ∈ markExcluded (sortSlice lessPlayer team0),
      p.Total = p.R1 + p.R2 + p.R3 + p.R4 := by
    intro p hp
    obtain ⟨q, hq, hpq⟩ := mem_markExcluded _ p hp
    have hqinv := hteam0 q ((mem_sortSlice lessPlayer team0 q).mp hq)
    rcases hpq with rfl | rfl
    · exact hqinv
    · simpa using hqinv
  have hslice : ∀ p ∈ slice4, p.Total = p.R1 + p.R2 + p.R3 + p.R4 := by
    intro p hp
    rcases mem_sliceUpTo _ 4 slice4 hs p hp with h1 | h1
    · exact hteam2 p h1
    · subst h1
      simp [zeroPlayer]
  subst hres
  intro p hp
  rcases List.mem_append.mp hp with h1 | h1
  · exact hteam2 p h1
  · have hpt : p = mkTotal slice4 := by simpa using h1
    subst hpt
    unfold mkTotal
    dsimp only
    rw [foldl_add_eq, foldl_add_eq, foldl_add_eq, foldl_add_eq, foldl_add_eq]
    simp only [zero_add]
    exact sum_totals_of_inv slice4 hslice

/-- C7 witness at a concrete snapshot and roster. -/
theorem C7_witness :
    getTeamScores lbCut5 ["A B", "C D", "E F", "G H"] =
      some ((getTeamScores lbCut5 ["A B", "C D", "E F", "G H"]).getD [])
  ∧ ∀ p ∈ (getTeamScores lbCut5 ["A B", "C D", "E F", "G H"]).getD [],
      p.Total = p.R1 + p.R2 + p.R3 + p.R4 :=
  ⟨by decide,
   C7_total_eq_sum lbCut5 ["A B", "C D", "E F", "G H"]
     ((getTeamScores lbCut5 ["A B", "C D", "E F", "G H"]).getD []) (by decide)⟩

theorem markExcluded_length (t : List Player) : (markExcluded t).length = t.length := by
  unfold markExcluded
  simp
  omega

theorem markExcluded_of_short (t : List Player) (h : t.length ≤ 4) : markExcluded t = t := by
  unfold markExcluded
  rw [List.take_of_length_le h, List.drop_eq_nil_of_le h]
  simp

theorem take4_markExcluded (t : List Player) : (markExcluded t).take 4 = t.take 4 := by
  unfold markExcluded
  rcases le_or_lt t.length 4 with h | h
  · rw [List.take_of_length_le h, List.drop_eq_nil_of_le h]
    simp [List.take_of_length_le h]
  · rw [List.take_append_of_le_length (by simp; omega)]
    rw [List.take_take]
    simp

theorem filter_markExcluded (t : List Player) (hexcl : ∀ p ∈ t, p.Excluded = false) :
    (markExcluded t).filter (fun p => !p.Excluded) = t.take 4 := by
  unfold markExcluded
  rw [List.filter_append]
  have h1 : (t.take 4).filter (fun p => !p.Excluded) = t.take 4 :=
    List.filter_eq_self.mpr (fun p hp => by
      simp [hexcl p (List.mem_of_mem_take hp)])
  have h2 : ((t.drop 4).map (fun p => { p with Excluded := true })).filter
      (fun p => !p.Excluded) = [] := by
    rw [List.filter_eq_nil_iff]
    intro p hp
    rcases List.mem_map.mp hp with ⟨q, hq, hpq⟩
    subst hpq
    simp
  rw [h1, h2, List.append_nil]

/-- C5: the synthetic Total entry is always the last element of the produced
sequence, and each of its fields R1, R2, R3, R4 and Total is the sum of the
corresponding field over exactly the non-excluded players. -/
theorem C5_total_entry (lb : Leaderboard) (names : List String) (res : List Player)
    (h : getTeamScores lb names = some res) :
    ∃ body,
      res = body ++
        [{ FullName := "Total",
           R1 := ((body.filter (fun p => !p.Excluded)).map Player.R1).sum,
           R2 := ((body.filter (fun p => !p.Excluded)).map Player.R2).sum,
           R3 := ((body.filter (fun p => !p.Excluded)).map Player.R3).sum,
           R4 := ((body.filter (fun p => !p.Excluded)).map Player.R4).sum,
           Total := ((body.filter (fun p => !p.Excluded)).map Player.Total).sum,
           Excluded := false }] := by
  obtain ⟨team0, slice4, hb, hs, hres⟩ := (getTeamScores_eq_some lb names res).mp h
  set s := sortSlice lessPlayer team0 with hsdef
  have hexcl : ∀ p ∈ s, p.Excluded = false := by
    intro p hp
    obtain ⟨n, row, rfl⟩ := buildTeam_mem lb (cutValOf lb) names team0 hb p
      ((mem_sortSlice lessPlayer team0 p).mp hp)
    exact scorePlayer_excluded n row (cutValOf lb)
  have hfilter : (markExcluded s).filter (fun p => !p.Excluded) = s.take 4 :=
    filter_markExcluded s hexcl
  refine ⟨markExcluded s, ?_⟩
  rw [hres, hfilter]
  have hfields : mkTotal slice4 =
      { FullName := "Total",
        R1 := ((s.take 4).map Player.R1).sum,
        R2 := ((s.take 4).map Player.R2).sum,
        R3 := ((s.take 4).map Player.R3).sum,
        R4 := ((s.take 4).map Player.R4).sum,
        Total := ((s.take 4).map Player.Total).sum,
        Excluded := false } := by
    unfold sliceUpTo at hs
    split at hs
    · have hslice : slice4 = (markExcluded s).take 4 := by
        injection hs with h2
        exact h2.symm
      rw [hslice, take4_markExcluded]
      unfold mkTotal
      rw [foldl_add_eq, foldl_add_eq, foldl_add_eq, foldl_add_eq, foldl_add_eq]
      simp
    · split at hs
      · rename_i hlong hcap
        have hlt : s.length < 4 := by
          rw [markExcluded_length] at hlong
          omega
        have hshort : markExcluded s = s := markExcluded_of_short s (by omega)
        have hslice : slice4 = s ++ List.replicate (4 - s.length) zeroPlayer := by
          injection hs with h2
          rw [← h2, hshort]
        rw [hslice]
        unfold mkTotal
        rw [foldl_add_eq, foldl_add_eq, foldl_add_eq, foldl_add_eq, foldl_add_eq]
        rw [List.take_of_length_le (by omega)]
        simp [zeroPlayer]
      · exact absurd hs (by simp)
  rw [hfields]

/-- C5 witness at a concrete snapshot and roster. -/
theorem C5_witness :
    ∃ body,
      (getTeamScores lbCut5 ["A B", "C D", "E F", "G H", "I J"]).getD [] = body ++
        [{ FullName := "Total",
           R1 := ((body.filter (fun p => !p.Excluded)).map Player.R1).sum,
           R2 := ((body.filter (fun p => !p.Excluded)).map Player.R2).sum,
           R3 := ((body.filter (fun p => !p.Excluded)).map Player.R3).sum,
           R4 := ((body.filter (fun p => !p.Excluded)).map Player.R4).sum,
           Total := ((body.filter (fun p => !p.Excluded)).map Player.Total).sum,
           Excluded := false }] :=
  C5_total_entry lbCut5 ["A B", "C D", "E F", "G H", "I J"]
    ((getTeamScores lbCut5 ["A B", "C D", "E F", "G H", "I J"]).getD []) (by decide)

/-! ## List-level account of the insertion-sort path

For slices of at most `maxInsertion = 12` elements, `pdqsort_func` runs the
plain insertion sort, which coincides with inserting each element in turn
into a sorted prefix: the classic stable insertion sort, stated here on
lists.  `binsert less x w` places `x` before the first element of `w` that
compares strictly greater. -/

def binsert {α : Type} (less : α → α → Bool) (x : α) : List α → List α
  | [] => [x]
  | y :: ys => if less x y then x :: y :: ys else y :: binsert less x ys

/-- Insert the elements of `suf`, in order, into the sorted prefix `pre`. -/
def insSortFrom {α : Type} (less : α → α → Bool) (pre suf : List α) : List α :=
  suf.foldl (fun acc y => binsert less y acc) pre

/-- The list-level stable insertion sort. -/
def insSortL {α : Type} (less : α → α → Bool) (l : List α) : List α :=
  insSortFrom less [] l

theorem binsert_length {α : Type} (less : α → α → Bool) (x : α) :
    ∀ w : List α, (binsert less x w).length = w.length + 1 := by
  intro w
  induction w with
  | nil => rfl
  | cons y ys ih =>
    rw [binsert]
    split
    · rfl
    · simp [ih]

theorem binsert_decomp {α : Type} (less : α → α → Bool) (x : α) :
    ∀ w : List α, ∃ u v, w = u ++ v ∧ binsert less x w = u ++ x :: v
      ∧ (∀ e ∈ u, less x e = false)
      ∧ (∀ e, v.head? = some e → less x e = true) := by
  intro w
  induction w with
  | nil => exact ⟨[], [], rfl, rfl, by simp, by simp⟩
  | cons y ys ih =>
    rw [binsert]
    split
    · rename_i hxy
      refine ⟨[], y :: ys, rfl, rfl, by simp, ?_⟩
      intro e he
      simp at he
      subst he
      exact hxy
    · rename_i hxy
      obtain ⟨u, v, hw, hb, hu, hv⟩ := ih
      refine ⟨y :: u, v, by rw [List.cons_append, ← hw], by rw [List.cons_append, ← hb], ?_, hv⟩
      intro e he
      rcases List.mem_cons.mp he with rfl | he2
      · simpa using hxy
      · exact hu e he2

theorem binsert_perm {α : Type} (less : α → α → Bool) (x : α) :
    ∀ w : List α, List.Perm (binsert less x w) (x :: w) := by
  intro w
  induction w with
  | nil => exact .refl _
  | cons y ys ih =>
    rw [binsert]
    split
    · exact .refl _
    · exact (List.Perm.cons y ih).trans (List.Perm.swap x y ys)

theorem binsert_sorted {α : Type} (less : α → α → Bool)
    (Hneg : ∀ x y z, less x y = false → less y z = false → less x z = false)
    (Hasym : ∀ x y, less x y = true → less y x = false) (x : α) :
    ∀ w : List α, w.Pairwise (fun p q => less q p = false) →
      (binsert less x w).Pairwise (fun p q => less q p = false) := by
  intro w
  induction w with
  | nil => intro h; simp [binsert]
  | cons y ys ih =>
    intro hsort
    rw [binsert]
    have hy := (List.pairwise_cons.mp hsort).1
    have hys := (List.pairwise_cons.mp hsort).2
    split
    · rename_i hxy
      refine List.pairwise_cons.mpr ⟨?_, hsort⟩
      intro e he
      rcases List.mem_cons.mp he with rfl | he2
      · exact Hasym x e hxy
      · exact Hneg e y x (hy e he2) (Hasym x y hxy)
    · rename_i hxy
      refine List.pairwise_cons.mpr ⟨?_, ih hys⟩
      intro e he
      have hmem := (binsert_perm less x ys).mem_iff.mp he
      rcases List.mem_cons.mp hmem with rfl | he2
      · simpa using hxy
      · exact hy e he2

theorem insSortFrom_sorted {α : Type} (less : α → α → Bool)
    (Hneg : ∀ x y z, less x y = false → less y z = false → less x z = false)
    (Hasym : ∀ x y, less x y = true → less y x = false) :
    ∀ suf pre : List α, pre.Pairwise (fun p q => less q p = false) →
      (insSortFrom less pre suf).Pairwise (fun p q => less q p = false) := by
  intro suf
  induction suf with
  | nil => intro pre h; exact h
  | cons x rest ih =>
    intro pre h
    exact ih (binsert less x pre) (binsert_sorted less Hneg Hasym x pre h)

theorem insSortFrom_perm {α : Type} (less : α → α → Bool) :
    ∀ suf pre : List α, List.Perm (insSortFrom less pre suf) (pre ++ suf) := by
  intro suf
  induction suf with
  | nil => intro pre; simp [insSortFrom]
  | cons x rest ih =>
    intro pre
    have h1 := ih (binsert less x pre)
    have h2 : List.Perm (binsert less x pre ++ rest) (pre ++ x :: rest) :=
      ((binsert_perm less x pre).append_right rest).trans List.perm_middle.symm
    exact h1.trans h2

theorem insSortL_sorted {α : Type} (less : α → α → Bool)
    (Hneg : ∀ x y z, less x y = false → less y z = false → less x z = false)
    (Hasym : ∀ x y, less x y = true → less y x = false) (l : List α) :
    (insSortL less l).Pairwise (fun p q => less q p = false) :=
  insSortFrom_sorted less Hneg Hasym l [] (by simp)

theorem insSortL_perm {α : Type} (less : α → α → Bool) (l : List α) :
    List.Perm (insSortL less l) l :=
  insSortFrom_perm less l []

theorem insSortL_append {α : Type} (less : α → α → Bool) (l : List α) (y : α) :
    insSortL less (l ++ [y]) = binsert less y (insSortL less l) := by
  rw [insSortL, insSortL, insSortFrom, insSortFrom, List.foldl_append]
  rfl

theorem insSortL_stable {α : Type} (less : α → α → Bool)
    (Hneg : ∀ x y z, less x y = false → less y z = false → less x z = false)
    (Hasym : ∀ x y, less x y = true → less y x = false) :
    ∀ l c : List α, c.Sublist l → c.Pairwise (fun p q => less q p = false) →
      c.Sublist (insSortL less l) := by
  intro l
  induction l using List.reverseRecOn with
  | nil =>
    intro c hc _
    simpa [insSortL, insSortFrom] using hc
  | append_singleton l₀ y ih =>
    intro c hc hpair
    rw [insSortL_append]
    obtain ⟨u, v, hw, hb, hu, hv⟩ := binsert_decomp less y (insSortL less l₀)
    rw [hb]
    rcases List.sublist_append_iff.mp hc with ⟨c₁, c₂, hceq, hc₁, hc₂⟩
    have hsorted := insSortL_sorted less Hneg Hasym l₀
    rcases List.sublist_singleton.mp hc₂ with rfl | rfl
    · -- nothing taken from the new last element
      subst hceq
      have h1 : List.Sublist (c₁ ++ []) (u ++ v) := by
        simpa using hw ▸ ih c₁ hc₁ (by simpa using hpair)
      refine h1.trans (List.Sublist.append_left ?_ u)
      exact List.sublist_cons_self y v
    · -- the last element of c is the inserted y
      subst hceq
      have hp := List.pairwise_append.mp hpair
      have hcy : ∀ e ∈ c₁, less y e = false := by
        intro e he
        simpa using hp.2.2 e he y (by simp)
      have hmem1 := hw ▸ ih c₁ hc₁ hp.1
      have hvall : ∀ e ∈ v, less y e = true := by
        intro e he
        cases v with
        | nil => simp at he
        | cons h t =>
          have hyh : less y h = true := hv h rfl
          rcases List.mem_cons.mp he with rfl | het
          · exact hyh
          · have hsw := hw ▸ hsorted
            have heh : less e h = false :=
              (List.pairwise_cons.mp (List.pairwise_append.mp hsw).2.1).1 e het
            cases hye : less y e with
            | false =>
              rw [Hneg y e h hye heh] at hyh
              simp at hyh
            | true => rfl
      have hc1u : List.Sublist c₁ u := by
        rcases List.sublist_append_iff.mp hmem1 with ⟨d₁, d₂, hd, hd₁, hd₂⟩
        cases d₂ with
        | nil => rw [hd]; simpa using hd₁
        | cons a t =>
          have hav : a ∈ v := hd₂.subset (by simp)
          have hac : a ∈ c₁ := by rw [hd]; simp
          exact absurd (hvall a hav) (by simp [hcy a hac])
      exact List.Sublist.append hc1u ((List.nil_sublist v).cons₂ y)

theorem set_append_len {α : Type} :
    ∀ (u w : List α) (k : Nat) (x : α), (u ++ w).set (u.length + k) x = u ++ w.set k x := by
  intro u
  induction u with
  | nil => simp
  | cons a u ih => intro w k x; simp [Nat.succ_add, ih]

theorem dget_append_len {α : Type} [Inhabited α] (y : α) (v : List α) :
    ∀ u : List α, dget (u ++ y :: v) u.length = y := by
  intro u
  induction u with
  | nil => rfl
  | cons a u ih => simpa [dget] using ih

theorem dget_append_len_succ {α : Type} [Inhabited α] (y z : α) (v : List α) :
    ∀ u : List α, dget (u ++ y :: z :: v) (u.length + 1) = z := by
  intro u
  induction u with
  | nil => rfl
  | cons a u ih => simpa [dget] using ih

theorem dswap_adj {α : Type} [Inhabited α] (u : List α) (y z : α) (v : List α) :
    dswap (u ++ y :: z :: v) (u.length + 1) u.length = u ++ z :: y :: v := by
  rw [dswap, dget_append_len_succ, dget_append_len]
  have h1 : (u ++ y :: z :: v).set (u.length + 1) y = u ++ y :: y :: v := by
    have := set_append_len u (y :: z :: v) 1 y
    simpa using this
  rw [h1]
  have := set_append_len u (y :: y :: v) 0 z
  simpa using this

theorem binsert_append_last_lt {α : Type} (less : α → α → Bool) (x q : α)
    (hxq : less x q = true) :
    ∀ qs : List α, binsert less x (qs ++ [q]) = binsert less x qs ++ [q] := by
  intro qs
  induction qs with
  | nil => simp [binsert, hxq]
  | cons y ys ih =>
    rw [List.cons_append, binsert, binsert]
    split
    · rfl
    · rw [ih, List.cons_append]

theorem binsert_all_ge {α : Type} (less : α → α → Bool) (x : α) :
    ∀ w : List α, (∀ e ∈ w, less x e = false) → binsert less x w = w ++ [x] := by
  intro w
  induction w with
  | nil => intro _; rfl
  | cons y ys ih =>
    intro hall
    rw [binsert, if_neg (by simp [hall y (by simp)]), ih (fun e he => hall e (by simp [he]))]
    rfl

theorem insSortInner_bubble {α : Type} [Inhabited α] (less : α → α → Bool)
    (Hneg : ∀ x y z, less x y = false → less y z = false → less x z = false) (x : α) :
    ∀ (pre : List α) (suf : List α), pre.Pairwise (fun p q => less q p = false) →
      insSortInner less 0 pre.length (pre ++ x :: suf) = binsert less x pre ++ suf := by
  intro pre
  induction pre using List.reverseRecOn with
  | nil => intro suf _; rfl
  | append_singleton qs q ih =>
    intro suf hsort
    have hqs : qs.Pairwise (fun p q => less q p = false) :=
      hsort.sublist (List.sublist_append_left qs [q])
    have hqse : ∀ e ∈ qs, less q e = false := by
      intro e he
      simpa using (List.pairwise_append.mp hsort).2.2 e he q (by simp)
    have hlen : (qs ++ [q]).length = qs.length + 1 := by simp
    have hassoc : (qs ++ [q]) ++ x :: suf = qs ++ q :: x :: suf := by simp
    rw [hlen, hassoc, insSortInner]
    rw [dget_append_len_succ, dget_append_len]
    cases hxq : less x q with
    | true =>
      rw [if_pos ⟨by omega, rfl⟩, dswap_adj]
      rw [ih (q :: suf) hqs, binsert_append_last_lt less x q hxq, List.append_assoc]
      rfl
    | false =>
      rw [if_neg (by simp)]
      rw [binsert_all_ge less x (qs ++ [q]) ?hall]
      · simp
      case hall =>
        intro e he
        rcases List.mem_append.mp he with he2 | he2
        · exact Hneg x q e hxq (hqse e he2)
        · simp at he2
          subst he2
          exact hxq

theorem insSortOuter_eq {α : Type} [Inhabited α] (less : α → α → Bool)
    (Hneg : ∀ x y z, less x y = false → less y z = false → less x z = false)
    (Hasym : ∀ x y, less x y = true → less y x = false) :
    ∀ (suf : List α) (gas : Nat) (pre : List α) (b i : Nat) (w : List α),
      suf.length ≤ gas → b = pre.length + suf.length → i = pre.length →
      w = pre ++ suf →
      pre.Pairwise (fun p q => less q p = false) →
      insSortOuter less 0 b gas i w = insSortFrom less pre suf := by
  intro suf
  induction suf with
  | nil =>
    intro gas pre b i w _ hb hi hw _
    subst hb; subst hi; subst hw
    cases gas with
    | zero => simp [insSortOuter, insSortFrom]
    | succ g =>
      rw [insSortOuter, if_neg (by simp)]
      simp [insSortFrom]
  | cons x rest ih =>
    intro gas pre b i w hgas hb hi hw hsort
    subst hb; subst hi; subst hw
    cases gas with
    | zero => simp at hgas
    | succ g =>
      rw [insSortOuter, if_pos (by simp only [List.length_cons] <;> omega)]
      rw [insSortInner_bubble less Hneg x pre rest hsort]
      exact ih g (binsert less x pre) _ _ _
        (by simp only [List.length_cons] at hgas <;> omega)
        (by rw [binsert_length]; simp only [List.length_cons] <;> omega)
        (by rw [binsert_length])
        rfl
        (binsert_sorted less Hneg Hasym x pre hsort)

theorem insertionSortGo_eq_insSortL {α : Type} [Inhabited α] (less : α → α → Bool)
    (Hneg : ∀ x y z, less x y = false → less y z = false → less x z = false)
    (Hasym : ∀ x y, less x y = true → less y x = false) (l : List α) :
    insertionSortGo less l 0 l.length = insSortL less l := by
  cases l with
  | nil => rfl
  | cons y rest =>
    rw [insertionSortGo]
    exact insSortOuter_eq less Hneg Hasym rest ((y :: rest).length - 0) [y] _ _ _
      (by simp only [List.length_cons, List.length_nil, Nat.sub_zero] <;> omega)
      (by simp only [List.length_cons, List.length_nil] <;> omega)
      (by simp only [List.length_cons, List.length_nil] <;> omega)
      (by simp)
      (by simp)

theorem sortSlice_small {α : Type} [Inhabited α] (less : α → α → Bool) (l : List α)
    (h : l.length ≤ 12) :
    sortSlice less l = insertionSortGo less l 0 l.length := by
  simp only [sortSlice]
  cases hl : l.length with
  | zero => rfl
  | succ n =>
    rw [pdqsortGo, if_pos (by omega)]

/-! ## The amended sort claims -/

theorem lessPlayer_neg_trans (x y z : Player) (h1 : lessPlayer x y = false)
    (h2 : lessPlayer y z = false) : lessPlayer x z = false := by
  simp only [lessPlayer, decide_eq_false_iff_not] at h1 h2 ⊢
  omega

theorem lessPlayer_asymm (x y : Player) (h : lessPlayer x y = true) :
    lessPlayer y x = false := by
  simp only [lessPlayer, decide_eq_true_eq, decide_eq_false_iff_not] at h ⊢
  omega

/-- Below thirteen elements, `sort.Slice` is exactly the stable list-level
insertion sort. -/
theorem sortSlice_insertion (team : List Player) (h12 : team.length ≤ 12) :
    sortSlice lessPlayer team = insSortL lessPlayer team := by
  rw [sortSlice_small lessPlayer team h12]
  exact insertionSortGo_eq_insSortL lessPlayer lessPlayer_neg_trans lessPlayer_asymm team

theorem sortSlice_sorted_le12 (team : List Player) (h12 : team.length ≤ 12) :
    (sortSlice lessPlayer team).Pairwise (fun p q => p.Total ≤ q.Total) := by
  rw [sortSlice_insertion team h12]
  refine List.Pairwise.imp ?_
    (insSortL_sorted lessPlayer lessPlayer_neg_trans lessPlayer_asymm team)
  intro a b hab
  simp only [lessPlayer, decide_eq_false_iff_not] at hab
  omega

theorem sortSlice_stable_le12 (team : List Player) (h12 : team.length ≤ 12)
    (p q : Player) (hsub : List.Sublist [p, q] team) (heq : p.Total = q.Total) :
    List.Sublist [p, q] (sortSlice lessPlayer team) := by
  rw [sortSlice_insertion team h12]
  refine insSortL_stable lessPlayer lessPlayer_neg_trans lessPlayer_asymm team [p, q] hsub ?_
  refine List.pairwise_cons.mpr ⟨?_, ?_⟩
  · intro e he
    simp only [List.mem_singleton] at he
    subst he
    simp only [lessPlayer, decide_eq_false_iff_not]
    omega
  · simp

/-- A team of three scored players with a tie, inside the insertion-sort
range, used to witness the amended sort claims. -/
def wteamC6 : List Player :=
  [ { FullName := "W1", R1 := 2, R2 := 0, R3 := 0, R4 := 0, Total := 2, Excluded := false }
  , { FullName := "W2", R1 := 1, R2 := 0, R3 := 0, R4 := 0, Total := 1, Excluded := false }
  , { FullName := "W3", R1 := 1, R2 := 0, R3 := 0, R4 := 0, Total := 1, Excluded := false } ]

/-- C6 (amended): the sort of a team's scored players is a permutation of
them; for teams of at most twelve players -- the range in which `sort.Slice`
runs its plain insertion sort -- it is ascending by total and stable: two
players with equal totals keep their relative roster order.  (From thirteen
players up the quicksort path can reorder equal-total players.) -/
theorem C6_amended (team : List Player) :
    List.Perm (sortSlice lessPlayer team) team
  ∧ (team.length ≤ 12 →
      (sortSlice lessPlayer team).Pairwise (fun p q => p.Total ≤ q.Total))
  ∧ (team.length ≤ 12 → ∀ p q : Player, List.Sublist [p, q] team → p.Total = q.Total →
      List.Sublist [p, q] (sortSlice lessPlayer team)) :=
  ⟨sortSlice_perm lessPlayer team,
   fun h12 => sortSlice_sorted_le12 team h12,
   fun h12 p q hsub heq => sortSlice_stable_le12 team h12 p q hsub heq⟩

/-- Witness for C6 (amended) on a concrete three-player team with a tie. -/
theorem C6_witness :
    wteamC6.length ≤ 12
  ∧ List.Perm (sortSlice lessPlayer wteamC6) wteamC6
  ∧ (sortSlice lessPlayer wteamC6).Pairwise (fun p q => p.Total ≤ q.Total)
  ∧ (∀ p q : Player, List.Sublist [p, q] wteamC6 → p.Total = q.Total →
      List.Sublist [p, q] (sortSlice lessPlayer wteamC6)) :=
  ⟨by decide, (C6_amended wteamC6).1, (C6_amended wteamC6).2.1 (by decide),
   (C6_amended wteamC6).2.2 (by decide)⟩

/-- C4 (amended): in every team result built from at least four matched
players, exactly the players at positions 0 to 3 count: the output is the
marked sorted team plus one synthetic entry, the first four players carry
`Excluded = false` and are the first four of the sorted sequence, and every
later player except the final synthetic Total entry carries
`Excluded = true`.  When at most twelve players matched -- the insertion-sort
range of `sort.Slice` -- the four counting players have minimal totals and
ties among equal totals are resolved in favor of earlier roster order; the
thirteen-player counterexample shows the tie rule fails beyond that range. -/
theorem C4_amended (lb : Leaderboard) (names : List String) (res team0 : List Player)
    (hbuild : buildTeam lb (cutValOf lb) names = some team0)
    (hres : getTeamScores lb names = some res)
    (h4 : 4 ≤ team0.length) :
    res.length = team0.length + 1
  ∧ res.take 4 = (sortSlice lessPlayer team0).take 4
  ∧ (∀ p ∈ res.take 4, p.Excluded = false)
  ∧ (∀ p ∈ (res.drop 4).dropLast, p.Excluded = true)
  ∧ (team0.length ≤ 12 →
      ∀ p ∈ (sortSlice lessPlayer team0).take 4,
        ∀ q ∈ (sortSlice lessPlayer team0).drop 4, p.Total ≤ q.Total)
  ∧ (team0.length ≤ 12 → ∀ p q : Player, List.Sublist [p, q] team0 → p.Total = q.Total →
      List.Sublist [p, q] (sortSlice lessPlayer team0)) := by
  obtain ⟨team0', slice4, hbuild', hslice, hres'⟩ := (getTeamScores_eq_some lb names res).mp hres
  rw [hbuild] at hbuild'
  injection hbuild' with hteq
  subst hteq
  have hslen : (sortSlice lessPlayer team0).length = team0.length :=
    sortSlice_length lessPlayer team0
  have hmlen : (markExcluded (sortSlice lessPlayer team0)).length = team0.length := by
    rw [markExcluded_length, hslen]
  have hall : ∀ p ∈ team0, p.Excluded = false := by
    intro p hp
    obtain ⟨name, row, hp'⟩ := buildTeam_mem lb (cutValOf lb) names team0 hbuild p hp
    rw [hp']
    exact scorePlayer_excluded name row (cutValOf lb)
  have hsmem : ∀ p ∈ sortSlice lessPlayer team0, p.Excluded = false :=
    fun p hp => hall p ((mem_sortSlice lessPlayer team0 p).mp hp)
  have htake : res.take 4 = (sortSlice lessPlayer team0).take 4 := by
    rw [hres', List.take_append_of_le_length (by omega), take4_markExcluded]
  have hdrop : (res.drop 4).dropLast =
      ((sortSlice lessPlayer team0).drop 4).map (fun p => { p with Excluded := true }) := by
    rw [hres', List.drop_append_of_le_length (by omega), List.dropLast_concat]
    unfold markExcluded
    have hlen4 : ((sortSlice lessPlayer team0).take 4).length = 4 := by
      rw [List.length_take]
      omega
    rw [List.drop_left' hlen4]
  refine ⟨?_, htake, ?_, ?_, ?_, fun h12 p q hs he => sortSlice_stable_le12 team0 h12 p q hs he⟩
  · rw [hres']
    simp [hmlen]
  · intro p hp
    rw [htake] at hp
    exact hsmem p (List.mem_of_mem_take hp)
  · intro p hp
    rw [hdrop] at hp
    rcases List.mem_map.mp hp with ⟨q, hq, hpq⟩
    subst hpq
    rfl
  · intro h12
    have hsorted := sortSlice_sorted_le12 team0 h12
    have hpw := List.pairwise_append.mp (show
        ((sortSlice lessPlayer team0).take 4 ++ (sortSlice lessPlayer team0).drop 4).Pairwise
          (fun p q => p.Total ≤ q.Total) by
      rw [List.take_append_drop]
      exact hsorted)
    exact fun p hp q hq => hpw.2.2 p hp q hq

/-- The full five-name roster on the `lbCut5` snapshot, and the team and
result it produces, witnessing C4 (amended). -/
def wnames5 : List String := ["A B", "C D", "E F", "G H", "I J"]

/-- The five matched players built from `lbCut5`. -/
def wteam5 : List Player := (buildTeam lbCut5 (cutValOf lbCut5) wnames5).getD []

/-- The team result produced by `getTeamScores` on `lbCut5`. -/
def wres5 : List Player := (getTeamScores lbCut5 wnames5).getD []

/-- Witness for C4 (amended) on the five-player `lbCut5` team. -/
theorem C4_witness :
    buildTeam lbCut5 (cutValOf lbCut5) wnames5 = some wteam5
  ∧ getTeamScores lbCut5 wnames5 = some wres5
  ∧ 4 ≤ wteam5.length ∧ wteam5.length ≤ 12
  ∧ (wres5.length = wteam5.length + 1
     ∧ wres5.take 4 = (sortSlice lessPlayer wteam5).take 4
     ∧ (∀ p ∈ wres5.take 4, p.Excluded = false)
     ∧ (∀ p ∈ (wres5.drop 4).dropLast, p.Excluded = true)
     ∧ (wteam5.length ≤ 12 →
         ∀ p ∈ (sortSlice lessPlayer wteam5).take 4,
           ∀ q ∈ (sortSlice lessPlayer wteam5).drop 4, p.Total ≤ q.Total)
     ∧ (wteam5.length ≤ 12 → ∀ p q : Player, List.Sublist [p, q] wteam5 →
         p.Total = q.Total → List.Sublist [p, q] (sortSlice lessPlayer wteam5))) :=
  ⟨by decide, by decide, by decide, by decide,
   C4_amended lbCut5 wnames5 wres5 wteam5 (by decide) (by decide) (by decide)⟩
